import Mathlib

/-!
Shallow embedding of `djbsort-rs` (`src/lib.rs`): a constant-time sorting
network over fixed-width unsigned integers, together with the branchless
greater-than mask and conditional-swap primitives it is built from.

Machine integers of width `w` are modelled as natural numbers below `2 ^ w`;
wrapping arithmetic is explicit (`% 2 ^ w`).  A slice of width-`w` integers is
a `List Nat`.  Rust's indexing `self[i]` is modelled with `List.getD` /
`List.set`; in-bounds behaviour is identical, and a separate checked variant
(`runTraceChecked`) models the panicking bounds checks.
-/

namespace DjbSort

/-- Wrapping subtraction `x.wrapping_sub(y)` in `w`-bit arithmetic
(arguments below `2 ^ w`). -/
def wsub (w x y : Nat) : Nat := (2 ^ w + x - y) % 2 ^ w

/-- Wrapping negation `x.wrapping_neg()` in `w`-bit arithmetic
(argument below `2 ^ w`). -/
def wneg (w x : Nat) : Nat := (2 ^ w - x) % 2 ^ w

/-- `gt_mask` from the source (`generate_gt_mask!`): starting from
`other.wrapping_sub(self)` it xors with `self`, ors with `other ^ self`, xors
with `other`, shifts right by `w - 1` and wrapping-negates.  Here `a` is the
receiver `self` and `b` is `other`. -/
def gtMask (w a b : Nat) : Nat :=
  let result := wsub w b a
  let result := result ^^^ a
  let result := result ||| (b ^^^ a)
  let result := result ^^^ b
  let result := result >>> (w - 1)
  wneg w result

/-- `minmax_at` from the source: read `a = self[i]`, `b = self[j]`, compute the
swap operator `(a ^ b) & a.gt_mask(b)`, and xor it into both slots. -/
def minmaxAt (w : Nat) (s : List Nat) (i j : Nat) : List Nat :=
  let a := s.getD i 0
  let b := s.getD j 0
  let swapOperator := (a ^^^ b) &&& gtMask w a b
  (s.set i (a ^^^ swapOperator)).set j (b ^^^ swapOperator)

/-- `minmax` from the source: compare the copied value `a` against `self[j]`,
update slot `j` with the xor-masked value and return the updated copy. -/
def minmax (w : Nat) (s : List Nat) (a : Nat) (j : Nat) : Nat × List Nat :=
  let b := s.getD j 0
  let swapOperator := (a ^^^ b) &&& gtMask w a b
  (a ^^^ swapOperator, s.set j (b ^^^ swapOperator))

/-- The `successors(Some(1), checked_mul 2).take_while(< n).last()` computation
of `ct_sort`, written as a recursion on the exponent: starting from `2 ^ e`
(with `2 ^ e < n` at every call), keep doubling while the doubled value is
still below `n`.  `topPow n 0` is the largest power of two strictly below `n`
whenever `2 ≤ n`. -/
def topPow (n e : Nat) : Nat :=
  if 2 ^ (e + 1) < n then topPow n (e + 1) else 2 ^ e
termination_by n - 2 ^ e
decreasing_by
  exact Nat.sub_lt_sub_left (Nat.lt_of_lt_of_le (Nat.pow_lt_pow_right (by omega) (Nat.lt_succ_self e)) (Nat.le_of_lt (by assumption))) (Nat.pow_lt_pow_right (by omega) (Nat.lt_succ_self e))

/-- The innermost fold of `ct_sort`: `successors(Some(q), >> 1).take_while(> p)
.fold(a, fun a r => self.minmax(a, i + r))`.  Returns the final accumulator and
the updated slice. -/
def rFold (w p i : Nat) (r a : Nat) (s : List Nat) : Nat × List Nat :=
  if p < r then
    let step := minmax w s a (i + r)
    rFold w p i (r >>> 1) step.1 step.2
  else (a, s)
termination_by r
decreasing_by
  simp only [Nat.shiftRight_one]
  omega

/-- The loop `for i in offset..(self.len() - q)` inside the `q`-fold of
`ct_sort`: for each `i` with `i & p == 0`, write back into `self[i + p]` the
result of folding `self[i + p]` through `minmax` against slots `i + r`. -/
def qInner (w p q offset : Nat) (s : List Nat) : List Nat :=
  (List.range' offset (s.length - q - offset)).foldl
    (fun t i =>
      if i &&& p == 0 then
        let f := rFold w p i q (t.getD (i + p) 0) t
        f.2.set (i + p) f.1
      else t) s

/-- The fold over `q` in `ct_sort`: `successors(Some(top), >> 1)
.take_while(> p).fold(0, ...)`, threading the `offset` accumulator which
becomes `self.len() - q` after each step. -/
def qLoop (w p q offset : Nat) (s : List Nat) : List Nat :=
  if p < q then
    let t := qInner w p q offset s
    qLoop w p (q >>> 1) (t.length - q) t
  else s
termination_by q
decreasing_by
  simp only [Nat.shiftRight_one]
  omega

/-- The first inner loop of `ct_sort` for a given `p`:
`for i in 0..(self.len() - p) { if i & p == 0 { self.minmax_at(i, i + p) } }`. -/
def phaseA (w p : Nat) (s : List Nat) : List Nat :=
  (List.range (s.length - p)).foldl
    (fun t i => if i &&& p == 0 then minmaxAt w t i (i + p) else t) s

/-- The outer loop of `ct_sort` over `p = top, top >> 1, ..., 1`. -/
def pLoop (w top p : Nat) (s : List Nat) : List Nat :=
  if 0 < p then
    pLoop w top (p >>> 1) (qLoop w p top 0 (phaseA w p s))
  else s
termination_by p
decreasing_by
  simp only [Nat.shiftRight_one]
  omega

/-- `ct_sort` from the source.  The `if let Some(top)` binding succeeds exactly
when the stream `1, 2, 4, ...` has an element below `self.len()`, i.e. when
`1 < self.len()`; `top` is then the largest power of two strictly below the
length. -/
def ctSort (w : Nat) (s : List Nat) : List Nat :=
  if 1 < s.length then pLoop w (topPow s.length 0) (topPow s.length 0) s else s

/-- The widths the source instantiates the sort for:
`generate_constant_time_sort!(u8 / u16 / u32 / u64)`. -/
def supportedWidths : List Nat := [8, 16, 32, 64]

/-! ### Instrumented variant

The same recursion as `ctSort`, additionally appending the index pair of every
comparator invocation (`minmax_at(i, i + p)` logs `(i, i + p)`; the
`minmax(a, i + r)` call, which compares the running value of slot `i + p`
against slot `i + r`, logs `(i + p, i + r)`). -/

/-- Instrumented `rFold`: also returns the comparator pairs in order. -/
def rFoldT (w p i : Nat) (r a : Nat) (s : List Nat) (tr : List (Nat × Nat)) :
    Nat × List Nat × List (Nat × Nat) :=
  if p < r then
    let step := minmax w s a (i + r)
    rFoldT w p i (r >>> 1) step.1 step.2 (tr ++ [(i + p, i + r)])
  else (a, s, tr)
termination_by r
decreasing_by
  simp only [Nat.shiftRight_one]
  omega

/-- Instrumented `qInner`. -/
def qInnerT (w p q offset : Nat) (st : List Nat × List (Nat × Nat)) :
    List Nat × List (Nat × Nat) :=
  (List.range' offset (st.1.length - q - offset)).foldl
    (fun t i =>
      if i &&& p == 0 then
        let f := rFoldT w p i q (t.1.getD (i + p) 0) t.1 t.2
        (f.2.1.set (i + p) f.1, f.2.2)
      else t) st

/-- Instrumented `qLoop`. -/
def qLoopT (w p q offset : Nat) (st : List Nat × List (Nat × Nat)) :
    List Nat × List (Nat × Nat) :=
  if p < q then
    let t := qInnerT w p q offset st
    qLoopT w p (q >>> 1) (t.1.length - q) t
  else st
termination_by q
decreasing_by
  simp only [Nat.shiftRight_one]
  omega

/-- Instrumented `phaseA`. -/
def phaseAT (w p : Nat) (st : List Nat × List (Nat × Nat)) :
    List Nat × List (Nat × Nat) :=
  (List.range (st.1.length - p)).foldl
    (fun t i =>
      if i &&& p == 0 then (minmaxAt w t.1 i (i + p), t.2 ++ [(i, i + p)])
      else t) st

/-- Instrumented `pLoop`. -/
def pLoopT (w top p : Nat) (st : List Nat × List (Nat × Nat)) :
    List Nat × List (Nat × Nat) :=
  if 0 < p then
    pLoopT w top (p >>> 1) (qLoopT w p top 0 (phaseAT w p st))
  else st
termination_by p
decreasing_by
  simp only [Nat.shiftRight_one]
  omega

/-- Instrumented `ctSort`: returns the sorted list together with the sequence
of comparator index pairs performed, in execution order. -/
def ctSortT (w : Nat) (s : List Nat) : List Nat × List (Nat × Nat) :=
  if 1 < s.length then pLoopT w (topPow s.length 0) (topPow s.length 0) (s, [])
  else (s, [])

/-! ### The comparator-index pattern as a pure function of the length -/

/-- The values taken by `successors(Some(q), >> 1).take_while(> p)`. -/
def halvings (p q : Nat) : List Nat :=
  if p < q then q :: halvings p (q >>> 1) else []
termination_by q
decreasing_by
  simp only [Nat.shiftRight_one]
  omega

/-- Comparator pairs emitted by the innermost fold for a given `i`. -/
def traceR (p i q : Nat) : List (Nat × Nat) :=
  (halvings p q).map (fun r => (i + p, i + r))

/-- Comparator pairs emitted by the `i`-loop of one `q`-fold step. -/
def traceQInner (n p q offset : Nat) : List (Nat × Nat) :=
  (List.range' offset (n - q - offset)).flatMap
    (fun i => if i &&& p == 0 then traceR p i q else [])

/-- Comparator pairs emitted by the whole `q`-fold for a given `p`. -/
def traceQ (n p q offset : Nat) : List (Nat × Nat) :=
  if p < q then traceQInner n p q offset ++ traceQ n p (q >>> 1) (n - q) else []
termination_by q
decreasing_by
  simp only [Nat.shiftRight_one]
  omega

/-- Comparator pairs emitted by the first inner loop for a given `p`. -/
def traceA (n p : Nat) : List (Nat × Nat) :=
  (List.range (n - p)).flatMap
    (fun i => if i &&& p == 0 then [(i, i + p)] else [])

/-- Comparator pairs emitted by the outer loop from `p` downwards. -/
def traceP (n top p : Nat) : List (Nat × Nat) :=
  if 0 < p then traceA n p ++ traceQ n p top 0 ++ traceP n top (p >>> 1) else []
termination_by p
decreasing_by
  simp only [Nat.shiftRight_one]
  omega

/-- The full comparator-index pattern of `ct_sort` on a slice of length `n`:
a pure function of `n`. -/
def netTrace (n : Nat) : List (Nat × Nat) :=
  if 1 < n then traceP n (topPow n 0) (topPow n 0) else []

/-! ### Specification-level comparators -/

/-- Mathematical compare-exchange: put `min` at `c.1` and `max` at `c.2`. -/
def cmpAt (s : List Nat) (c : Nat × Nat) : List Nat :=
  (s.set c.1 (min (s.getD c.1 0) (s.getD c.2 0))).set c.2
    (max (s.getD c.1 0) (s.getD c.2 0))

/-- Apply a list of compare-exchanges in order. -/
def cmpList (l : List (Nat × Nat)) (s : List Nat) : List Nat := l.foldl cmpAt s

/-- Apply a list of comparator pairs using the source's `minmax_at`. -/
def runTrace (w : Nat) (l : List (Nat × Nat)) (s : List Nat) : List Nat :=
  l.foldl (fun t c => minmaxAt w t c.1 c.2) s

/-- Bounds-checked `minmax_at`: models the Rust indexing `self[i]`, `self[j]`
(and the two writes), returning `none` where Rust would panic. -/
def minmaxAtChecked (w : Nat) (s : List Nat) (i j : Nat) : Option (List Nat) :=
  match s[i]?, s[j]? with
  | some a, some b =>
      let swapOperator := (a ^^^ b) &&& gtMask w a b
      some ((s.set i (a ^^^ swapOperator)).set j (b ^^^ swapOperator))
  | _, _ => none

/-- Apply a list of comparator pairs with bounds-checked indexing. -/
def runTraceChecked (w : Nat) (l : List (Nat × Nat)) (s : List Nat) :
    Option (List Nat) :=
  match l with
  | [] => some s
  | c :: t => (minmaxAtChecked w s c.1 c.2).bind (runTraceChecked w t)

/-- Phase-B comparators at a single distance `r`, low indices first
(the canonical per-distance order used in the correctness proof). -/
def passB (n p r : Nat) : List (Nat × Nat) :=
  ((List.range (n - r)).filter (fun i => i &&& p == 0)).map
    (fun i => (i + p, i + r))

/-- Phase-B comparators grouped by distance, largest distance first. -/
def passesB (n p q : Nat) : List (Nat × Nat) :=
  if p < q then passB n p q ++ passesB n p (q >>> 1) else []
termination_by q
decreasing_by
  simp only [Nat.shiftRight_one]
  omega

/-- Phase-A comparators for a given `p`, in `filter`/`map` form. -/
def passA (n p : Nat) : List (Nat × Nat) :=
  ((List.range (n - p)).filter (fun i => i &&& p == 0)).map
    (fun i => (i, i + p))

/-! ### Order predicates used by the sortedness proof -/

/-- `v` is `k`-ordered: elements `k` apart are in order. -/
def ordAt (v : List Nat) (k : Nat) : Prop :=
  ∀ i, i + k < v.length → v.getD i 0 ≤ v.getD (i + k) 0

/-- After phase A: each low slot is below its partner `p` above. -/
def condB (v : List Nat) (p : Nat) : Prop :=
  ∀ i, i &&& p = 0 → i + p < v.length → v.getD i 0 ≤ v.getD (i + p) 0

/-- The cascading merge invariant: each high slot `i + p` is below the low
slot `2 * q` above `i`. -/
def condJ (v : List Nat) (p q : Nat) : Prop :=
  ∀ i, i &&& p = 0 → i + 2 * q < v.length →
    v.getD (i + p) 0 ≤ v.getD (i + 2 * q) 0

/-- Two comparator pairs interfere when they share a slot. -/
def Touches (c d : Nat × Nat) : Prop :=
  c.1 = d.1 ∨ c.1 = d.2 ∨ c.2 = d.1 ∨ c.2 = d.2

/-- Execution order of phase B comparators: increasing low slot, then
decreasing high slot (i.e. decreasing distance). -/
def orderB1 (c d : Nat × Nat) : Prop :=
  c.1 < d.1 ∨ (c.1 = d.1 ∧ d.2 < c.2)

/-- Distance-major order of phase B comparators: decreasing distance, then
increasing low slot. -/
def orderB2 (c d : Nat × Nat) : Prop :=
  d.2 - d.1 < c.2 - c.1 ∨ (c.2 - c.1 = d.2 - d.1 ∧ c.1 < d.1)

/-! ## Correctness of the branchless comparator -/

lemma two_pow_eq_two_mul (w : Nat) (hw : 1 ≤ w) : 2 ^ w = 2 * 2 ^ (w - 1) := by
  cases w with
  | zero => omega
  | succ k => simp [Nat.pow_succ, Nat.mul_comm]

lemma topBit_true {w x : Nat} (hw : 1 ≤ w) (h1 : 2 ^ (w - 1) ≤ x)
    (h2 : x < 2 ^ w) : Nat.testBit x (w - 1) = true := by
  have hp : 2 ^ w = 2 * 2 ^ (w - 1) := two_pow_eq_two_mul w hw
  have hdiv : x / 2 ^ (w - 1) = 1 :=
    Nat.div_eq_of_lt_le (by omega) (by omega)
  rw [Nat.testBit_to_div_mod, hdiv]
  decide

lemma topBit_false {w x : Nat} (h1 : x < 2 ^ (w - 1)) :
    Nat.testBit x (w - 1) = false := Nat.testBit_lt_two_pow h1

lemma wsub_of_le {w a b : Nat} (hab : a ≤ b) (hb : b < 2 ^ w) :
    wsub w b a = b - a := by
  unfold wsub
  have h1 : 2 ^ w + b - a = 2 ^ w + (b - a) := by omega
  rw [h1, Nat.add_mod_left, Nat.mod_eq_of_lt (by omega)]

lemma wsub_of_gt {w a b : Nat} (hab : b < a) (ha : a < 2 ^ w) :
    wsub w b a = 2 ^ w - (a - b) := by
  unfold wsub
  have h1 : 2 ^ w + b - a = 2 ^ w - (a - b) := by omega
  rw [h1, Nat.mod_eq_of_lt (by omega)]

/-- The branchless `gt_mask` produces exactly the all-ones or the all-zero
mask, for every pair of `w`-bit values. -/
theorem gtMask_eq {w a b : Nat} (hw : 1 ≤ w) (ha : a < 2 ^ w)
    (hb : b < 2 ^ w) : gtMask w a b = if b < a then 2 ^ w - 1 else 0 := by
  have hp : 2 ^ w = 2 * 2 ^ (w - 1) := two_pow_eq_two_mul w hw
  have hcpos : 0 < 2 ^ (w - 1) := Nat.pos_pow_of_pos _ (by omega)
  have hr1lt : wsub w b a < 2 ^ w := Nat.mod_lt _ (Nat.pos_pow_of_pos _ (by omega))
  set r1 := wsub w b a with hr1def
  set r4 := ((r1 ^^^ a) ||| (b ^^^ a)) ^^^ b with hr4def
  have hgm : gtMask w a b = wneg w (r4 >>> (w - 1)) := rfl
  have hr4lt : r4 < 2 ^ w :=
    Nat.xor_lt_two_pow
      (Nat.or_lt_two_pow (Nat.xor_lt_two_pow hr1lt ha) (Nat.xor_lt_two_pow hb ha)) hb
  have htop : Nat.testBit r4 (w - 1) = decide (b < a) := by
    have hexp : Nat.testBit r4 (w - 1) =
        (((Nat.testBit r1 (w - 1)).xor (Nat.testBit a (w - 1)) ||
          (Nat.testBit b (w - 1)).xor (Nat.testBit a (w - 1)))).xor
          (Nat.testBit b (w - 1)) := by
      simp [hr4def, Nat.testBit_xor, Nat.testBit_or, Bool.xor]
    by_cases hA : 2 ^ (w - 1) ≤ a
    · by_cases hB : 2 ^ (w - 1) ≤ b
      · -- both top bits set
        by_cases hab : b < a
        · have hr1v : r1 = 2 ^ w - (a - b) := wsub_of_gt hab ha
          have hr1top : Nat.testBit r1 (w - 1) = true :=
            topBit_true hw (by omega) (by omega)
          simp [hexp, hr1top, topBit_true hw hA ha, topBit_true hw hB hb, hab]
        · have hr1v : r1 = b - a := wsub_of_le (by omega) hb
          have hr1top : Nat.testBit r1 (w - 1) = false :=
            topBit_false (by omega)
          simp [hexp, hr1top, topBit_true hw hA ha, topBit_true hw hB hb, hab]
      · -- a has top bit, b does not: b < a
        have hab : b < a := by omega
        simp [hexp, topBit_true hw hA ha, topBit_false (by omega : b < 2 ^ (w - 1)), hab]
    · by_cases hB : 2 ^ (w - 1) ≤ b
      · -- b has top bit, a does not: a < b
        have hab : ¬ b < a := by omega
        simp [hexp, topBit_false (by omega : a < 2 ^ (w - 1)), topBit_true hw hB hb, hab]
      · -- neither top bit set
        by_cases hab : b < a
        · have hr1v : r1 = 2 ^ w - (a - b) := wsub_of_gt hab ha
          have hr1top : Nat.testBit r1 (w - 1) = true :=
            topBit_true hw (by omega) (by omega)
          simp [hexp, hr1top, topBit_false (by omega : a < 2 ^ (w - 1)),
            topBit_false (by omega : b < 2 ^ (w - 1)), hab]
        · have hr1v : r1 = b - a := wsub_of_le (by omega) hb
          have hr1top : Nat.testBit r1 (w - 1) = false :=
            topBit_false (by omega)
          simp [hexp, hr1top, topBit_false (by omega : a < 2 ^ (w - 1)),
            topBit_false (by omega : b < 2 ^ (w - 1)), hab]
  have hshift : r4 >>> (w - 1) = if b < a then 1 else 0 := by
    have hd2 : r4 / 2 ^ (w - 1) < 2 := (Nat.div_lt_iff_lt_mul hcpos).2 (by omega)
    have hmod : r4 / 2 ^ (w - 1) % 2 = r4 / 2 ^ (w - 1) := Nat.mod_eq_of_lt hd2
    have := Nat.toNat_testBit r4 (w - 1)
    rw [htop] at this
    rw [Nat.shiftRight_eq_div_pow, ← hmod, ← this]
    by_cases hab : b < a <;> simp [hab]
  rw [hgm, hshift]
  by_cases hab : b < a
  · simp only [hab, if_true]
    unfold wneg
    rw [Nat.mod_eq_of_lt (by omega)]
  · simp only [hab, if_false]
    unfold wneg
    simp

/-! ## The conditional-swap primitives -/

lemma getD_lt_of_bounded {w : Nat} {s : List Nat} (hw : 1 ≤ w)
    (hb : ∀ x ∈ s, x < 2 ^ w) (i : Nat) : s.getD i 0 < 2 ^ w := by
  rcases Nat.lt_or_ge i s.length with h | h
  · have hv : s.getD i 0 = s[i] := by
      simp [List.getD_eq_getElem?_getD, List.getElem?_eq_getElem h]
    rw [hv]
    exact hb _ (List.getElem_mem h)
  · have hv : s.getD i 0 = 0 := by
      simp [List.getD_eq_getElem?_getD, List.getElem?_eq_none h]
    rw [hv]
    exact Nat.pos_pow_of_pos _ (by omega)

lemma getD_set_self_len {s : List Nat} {i : Nat} {x : Nat} (hi : i < s.length) :
    (s.set i x).getD i 0 = x := by
  simp [List.getD_eq_getElem?_getD, List.getElem?_set_self hi]

lemma getD_set_other {s : List Nat} {i j : Nat} {x : Nat} (h : i ≠ j) :
    (s.set i x).getD j 0 = s.getD j 0 := by
  simp [List.getD_eq_getElem?_getD, List.getElem?_set_ne h]

lemma set_getD_self {s : List Nat} {i : Nat} (hi : i < s.length) :
    s.set i (s.getD i 0) = s := by
  apply List.ext_getElem?
  intro n
  rcases eq_or_ne n i with rfl | hne
  · rw [List.getElem?_set_self hi]
    simp [List.getD_eq_getElem?_getD, List.getElem?_eq_getElem hi]
  · rw [List.getElem?_set_ne (Ne.symm hne)]

/-- `minmax_at` coincides with the mathematical compare-exchange `cmpAt`
whenever all involved values are `w`-bit. -/
lemma minmaxAt_eq_cmpAt {w : Nat} {s : List Nat} (i j : Nat) (hw : 1 ≤ w)
    (hb : ∀ x ∈ s, x < 2 ^ w) : minmaxAt w s i j = cmpAt s (i, j) := by
  have ha := getD_lt_of_bounded hw hb i
  have hbv := getD_lt_of_bounded hw hb j
  unfold minmaxAt cmpAt
  simp only
  rcases Nat.lt_or_ge (s.getD j 0) (s.getD i 0) with h | h
  · rw [gtMask_eq hw ha hbv, if_pos h,
      Nat.and_pow_two_sub_one_of_lt_two_pow (Nat.xor_lt_two_pow ha hbv)]
    have h1 : s.getD i 0 ^^^ (s.getD i 0 ^^^ s.getD j 0) = s.getD j 0 := by
      rw [← Nat.xor_assoc, Nat.xor_self, Nat.zero_xor]
    have h2 : s.getD j 0 ^^^ (s.getD i 0 ^^^ s.getD j 0) = s.getD i 0 := by
      rw [Nat.xor_comm (s.getD i 0) (s.getD j 0), ← Nat.xor_assoc,
        Nat.xor_self, Nat.zero_xor]
    rw [h1, h2, Nat.min_eq_right (Nat.le_of_lt h), Nat.max_eq_left (Nat.le_of_lt h)]
  · rw [gtMask_eq hw ha hbv, if_neg (Nat.not_lt.2 h), Nat.and_zero,
      Nat.xor_zero, Nat.xor_zero, Nat.min_eq_left h, Nat.max_eq_right h]

/-- `minmax` in terms of `min` and `max`. -/
lemma minmax_eq {w : Nat} {s : List Nat} {a : Nat} (j : Nat) (hw : 1 ≤ w)
    (ha : a < 2 ^ w) (hb : ∀ x ∈ s, x < 2 ^ w) :
    minmax w s a j = (min a (s.getD j 0), s.set j (max a (s.getD j 0))) := by
  have hbv := getD_lt_of_bounded hw hb j
  unfold minmax
  simp only
  rcases Nat.lt_or_ge (s.getD j 0) a with h | h
  · rw [gtMask_eq hw ha hbv, if_pos h,
      Nat.and_pow_two_sub_one_of_lt_two_pow (Nat.xor_lt_two_pow ha hbv)]
    have h1 : a ^^^ (a ^^^ s.getD j 0) = s.getD j 0 := by
      rw [← Nat.xor_assoc, Nat.xor_self, Nat.zero_xor]
    have h2 : s.getD j 0 ^^^ (a ^^^ s.getD j 0) = a := by
      rw [Nat.xor_comm a (s.getD j 0), ← Nat.xor_assoc, Nat.xor_self, Nat.zero_xor]
    rw [h1, h2, Nat.min_eq_right (Nat.le_of_lt h), Nat.max_eq_left (Nat.le_of_lt h)]
  · rw [gtMask_eq hw ha hbv, if_neg (Nat.not_lt.2 h), Nat.and_zero,
      Nat.xor_zero, Nat.xor_zero, Nat.min_eq_left h, Nat.max_eq_right h]

/-- C2: for each width W in `{8, 16, 32, 64}`, `gt_mask(a, b)` returns the
all-ones value of width W if `a > b` and the all-zero value otherwise
(including when `a == b`), with no other output value possible; this holds for
every pair of W-bit values, including the boundaries `0` and the maximum. -/
theorem c2_gtMask_allones_or_zero (w a b : Nat) (hwmem : w ∈ supportedWidths)
    (ha : a < 2 ^ w) (hb : b < 2 ^ w) :
    (b < a → gtMask w a b = 2 ^ w - 1) ∧ (¬ b < a → gtMask w a b = 0) ∧
    (gtMask w a b = 2 ^ w - 1 ∨ gtMask w a b = 0) := by
  have hw : 1 ≤ w := by
    have hcases : w = 8 ∨ w = 16 ∨ w = 32 ∨ w = 64 := by
      simpa [supportedWidths] using hwmem
    omega
  have h := gtMask_eq hw ha hb
  by_cases hab : b < a
  · rw [if_pos hab] at h
    exact ⟨fun _ => h, fun hc => absurd hab hc, Or.inl h⟩
  · rw [if_neg hab] at h
    exact ⟨fun hc => absurd hc hab, fun _ => h, Or.inr h⟩

theorem c2_gtMask_allones_or_zero_witness :
    (8 ∈ supportedWidths ∧ 255 < 2 ^ 8 ∧ 254 < 2 ^ 8) ∧
    ((254 < 255 → gtMask 8 255 254 = 2 ^ 8 - 1) ∧
      (¬ 254 < 255 → gtMask 8 255 254 = 0) ∧
      (gtMask 8 255 254 = 2 ^ 8 - 1 ∨ gtMask 8 255 254 = 0)) :=
  ⟨by decide, c2_gtMask_allones_or_zero 8 255 254 (by decide) (by decide) (by decide)⟩

/-- C4: for distinct in-bounds indices, `minmax_at(i, j)` exchanges the two
values when `seq[i] > seq[j]` and leaves both unchanged otherwise; afterwards
slot `i` holds the minimum and slot `j` the maximum of the two originals. -/
theorem c4_minmaxAt_spec (w : Nat) (s : List Nat) (i j : Nat) (hw : 1 ≤ w)
    (hb : ∀ x ∈ s, x < 2 ^ w) (hi : i < s.length) (hj : j < s.length)
    (hij : i ≠ j) :
    (s.getD j 0 < s.getD i 0 →
      minmaxAt w s i j = (s.set i (s.getD j 0)).set j (s.getD i 0)) ∧
    (s.getD i 0 ≤ s.getD j 0 → minmaxAt w s i j = s) ∧
    (minmaxAt w s i j).getD i 0 = min (s.getD i 0) (s.getD j 0) ∧
    (minmaxAt w s i j).getD j 0 = max (s.getD i 0) (s.getD j 0) := by
  rw [minmaxAt_eq_cmpAt i j hw hb]
  unfold cmpAt
  simp only
  refine ⟨?_, ?_, ?_, ?_⟩
  · intro h
    rw [Nat.min_eq_right (Nat.le_of_lt h), Nat.max_eq_left (Nat.le_of_lt h)]
  · intro h
    rw [Nat.min_eq_left h, Nat.max_eq_right h, set_getD_self hi, set_getD_self hj]
  · rw [getD_set_other (Ne.symm hij), getD_set_self_len hi]
  · have hjlen : j < (s.set i (min (s.getD i 0) (s.getD j 0))).length := by
      simpa using hj
    rw [getD_set_self_len hjlen]

theorem c4_minmaxAt_spec_witness :
    (1 ≤ 8 ∧ (∀ x ∈ [7, 3], x < 2 ^ 8) ∧ 0 < ([7, 3] : List Nat).length ∧
      1 < ([7, 3] : List Nat).length ∧ (0 : Nat) ≠ 1) ∧
    ((([7, 3] : List Nat).getD 1 0 < ([7, 3] : List Nat).getD 0 0 →
      minmaxAt 8 [7, 3] 0 1 =
        (([7, 3] : List Nat).set 0 (([7, 3] : List Nat).getD 1 0)).set 1
          (([7, 3] : List Nat).getD 0 0)) ∧
    (([7, 3] : List Nat).getD 0 0 ≤ ([7, 3] : List Nat).getD 1 0 →
      minmaxAt 8 [7, 3] 0 1 = [7, 3]) ∧
    (minmaxAt 8 [7, 3] 0 1).getD 0 0 =
      min (([7, 3] : List Nat).getD 0 0) (([7, 3] : List Nat).getD 1 0) ∧
    (minmaxAt 8 [7, 3] 0 1).getD 1 0 =
      max (([7, 3] : List Nat).getD 0 0) (([7, 3] : List Nat).getD 1 0)) :=
  ⟨⟨by decide, by decide, by decide, by decide, by decide⟩,
    c4_minmaxAt_spec 8 [7, 3] 0 1 (by decide) (by decide) (by decide) (by decide)
      (by decide)⟩

/-- C8: `minmax(a, j)` modifies only slot `j`, setting it to the larger of `a`
and the old `seq[j]`, and returns the smaller of the two. -/
theorem c8_minmax_frame (w : Nat) (s : List Nat) (a j : Nat) (hw : 1 ≤ w)
    (ha : a < 2 ^ w) (hb : ∀ x ∈ s, x < 2 ^ w) (hj : j < s.length) :
    (minmax w s a j).1 = min a (s.getD j 0) ∧
    (minmax w s a j).2.getD j 0 = max a (s.getD j 0) ∧
    ∀ k, k ≠ j → (minmax w s a j).2.getD k 0 = s.getD k 0 := by
  rw [minmax_eq j hw ha hb]
  refine ⟨rfl, ?_, ?_⟩
  · exact getD_set_self_len hj
  · intro k hk
    exact getD_set_other hk.symm

theorem c8_minmax_frame_witness :
    (1 ≤ 8 ∧ 5 < 2 ^ 8 ∧ (∀ x ∈ [9, 2], x < 2 ^ 8) ∧
      1 < ([9, 2] : List Nat).length) ∧
    ((minmax 8 [9, 2] 5 1).1 = min 5 (([9, 2] : List Nat).getD 1 0) ∧
      (minmax 8 [9, 2] 5 1).2.getD 1 0 = max 5 (([9, 2] : List Nat).getD 1 0) ∧
      ∀ k, k ≠ 1 → (minmax 8 [9, 2] 5 1).2.getD k 0 =
        ([9, 2] : List Nat).getD k 0) :=
  ⟨⟨by decide, by decide, by decide, by decide⟩,
    c8_minmax_frame 8 [9, 2] 5 1 (by decide) (by decide) (by decide) (by decide)⟩

/-- C10: calling `minmax_at(i, i)` with equal in-bounds indices does not fault
and leaves the entire sequence unchanged. -/
theorem c10_minmaxAt_diag (w : Nat) (s : List Nat) (i : Nat)
    (hi : i < s.length) : minmaxAt w s i i = s := by
  unfold minmaxAt
  simp only [Nat.xor_self, Nat.zero_and, Nat.xor_zero]
  rw [List.set_set, set_getD_self hi]

theorem c10_minmaxAt_diag_witness :
    2 < ([4, 7, 1] : List Nat).length ∧ minmaxAt 16 [4, 7, 1] 2 2 = [4, 7, 1] :=
  ⟨by decide, c10_minmaxAt_diag 16 [4, 7, 1] 2 (by decide)⟩

/-! ## Length preservation -/

lemma length_minmaxAt (w : Nat) (s : List Nat) (i j : Nat) :
    (minmaxAt w s i j).length = s.length := by
  unfold minmaxAt
  simp

lemma length_minmax (w : Nat) (s : List Nat) (a j : Nat) :
    (minmax w s a j).2.length = s.length := by
  unfold minmax
  simp

lemma length_cmpAt (s : List Nat) (c : Nat × Nat) :
    (cmpAt s c).length = s.length := by
  unfold cmpAt
  simp

lemma length_runTrace (w : Nat) :
    ∀ (l : List (Nat × Nat)) (s : List Nat), (runTrace w l s).length = s.length := by
  intro l
  induction l with
  | nil => intro s; rfl
  | cons c t ih =>
    intro s
    show (runTrace w t (minmaxAt w s c.1 c.2)).length = s.length
    rw [ih, length_minmaxAt]

lemma length_cmpList :
    ∀ (l : List (Nat × Nat)) (s : List Nat), (cmpList l s).length = s.length := by
  intro l
  induction l with
  | nil => intro s; rfl
  | cons c t ih =>
    intro s
    show (cmpList t (cmpAt s c)).length = s.length
    rw [ih, length_cmpAt]

lemma runTrace_append (w : Nat) (l₁ l₂ : List (Nat × Nat)) (s : List Nat) :
    runTrace w (l₁ ++ l₂) s = runTrace w l₂ (runTrace w l₁ s) :=
  List.foldl_append _ _ _ _

lemma cmpList_append (l₁ l₂ : List (Nat × Nat)) (s : List Nat) :
    cmpList (l₁ ++ l₂) s = cmpList l₂ (cmpList l₁ s) :=
  List.foldl_append _ _ _ _

/-! ## The shape of `topPow` -/

lemma topPow_spec (n : Nat) :
    ∀ d e, d = n - 2 ^ e → 2 ^ e < n →
      ∃ k, e ≤ k ∧ topPow n e = 2 ^ k ∧ 2 ^ k < n ∧ n ≤ 2 ^ (k + 1) := by
  intro d
  induction d using Nat.strong_induction_on with
  | _ d ih =>
    intro e hd he
    rw [topPow]
    by_cases h : 2 ^ (e + 1) < n
    · rw [if_pos h]
      have hlt : 2 ^ e < 2 ^ (e + 1) :=
        Nat.pow_lt_pow_right (by omega) (Nat.lt_succ_self e)
      obtain ⟨k, hk1, hk2, hk3, hk4⟩ := ih (n - 2 ^ (e + 1)) (by omega) (e + 1) rfl h
      exact ⟨k, by omega, hk2, hk3, hk4⟩
    · rw [if_neg h]
      exact ⟨e, Nat.le_refl e, rfl, he, by omega⟩

lemma topPow_zero_spec {n : Nat} (hn : 1 < n) :
    ∃ k, topPow n 0 = 2 ^ k ∧ 2 ^ k < n ∧ n ≤ 2 ^ (k + 1) := by
  obtain ⟨k, _, h2, h3, h4⟩ := topPow_spec n (n - 1) 0 (by omega) (by simpa using hn)
  exact ⟨k, h2, h3, h4⟩

/-! ## `halvings` -/

lemma halvings_cons {p q : Nat} (h : p < q) :
    halvings p q = q :: halvings p (q >>> 1) := by
  rw [halvings, if_pos h]

lemma halvings_nil {p q : Nat} (h : ¬ p < q) : halvings p q = [] := by
  rw [halvings, if_neg h]

lemma halvings_le {p : Nat} :
    ∀ q r, r ∈ halvings p q → p < r ∧ r ≤ q := by
  intro q
  induction q using Nat.strong_induction_on with
  | _ q ih =>
    intro r hr
    rw [halvings] at hr
    by_cases h : p < q
    · rw [if_pos h] at hr
      rcases List.mem_cons.1 hr with rfl | hr
      · exact ⟨h, Nat.le_refl r⟩
      · have hq1 : q >>> 1 < q := by
          rw [Nat.shiftRight_one]
          omega
        obtain ⟨h1, h2⟩ := ih _ hq1 r hr
        exact ⟨h1, by omega⟩
    · rw [if_neg h] at hr
      simp at hr

lemma halvings_pow {p : Nat} :
    ∀ f r, r ∈ halvings p (2 ^ f) → ∃ g, g ≤ f ∧ r = 2 ^ g := by
  intro f
  induction f with
  | zero =>
    intro r hr
    rw [halvings] at hr
    by_cases h : p < 2 ^ 0
    · rw [if_pos h] at hr
      rcases List.mem_cons.1 hr with rfl | hr
      · exact ⟨0, Nat.le_refl 0, rfl⟩
      · have h0 : (2 ^ 0) >>> 1 = 0 := by decide
        rw [h0, halvings_nil (by omega)] at hr
        simp at hr
    · rw [if_neg h] at hr
      simp at hr
  | succ f ih =>
    intro r hr
    rw [halvings] at hr
    by_cases h : p < 2 ^ (f + 1)
    · rw [if_pos h] at hr
      rcases List.mem_cons.1 hr with rfl | hr
      · exact ⟨f + 1, Nat.le_refl _, rfl⟩
      · have hsh : (2 ^ (f + 1)) >>> 1 = 2 ^ f := by
          rw [Nat.shiftRight_one, Nat.pow_succ, Nat.mul_div_cancel]
          omega
        rw [hsh] at hr
        obtain ⟨g, hg1, hg2⟩ := ih r hr
        exact ⟨g, by omega, hg2⟩
    · rw [if_neg h] at hr
      simp at hr

lemma halvings_sorted {p : Nat} :
    ∀ q, (halvings p q).Pairwise (fun a b => b < a) := by
  intro q
  induction q using Nat.strong_induction_on with
  | _ q ih =>
    rw [halvings]
    by_cases h : p < q
    · rw [if_pos h]
      have hq1 : q >>> 1 < q := by
        rw [Nat.shiftRight_one]
        omega
      refine List.pairwise_cons.2 ⟨?_, ih _ hq1⟩
      intro r hr
      have := halvings_le _ r hr
      rw [Nat.shiftRight_one] at this
      omega
    · rw [if_neg h]
      exact List.Pairwise.nil

/-! ## Bit-level facts about masked indices -/

lemma and_two_pow_eq_zero_iff {i e : Nat} :
    i &&& 2 ^ e = 0 ↔ Nat.testBit i e = false := by
  constructor
  · intro h
    have := congrArg (fun x => Nat.testBit x e) h
    simpa [Nat.testBit_and, Nat.testBit_two_pow_self] using this
  · intro h
    apply Nat.eq_of_testBit_eq
    intro k
    rcases eq_or_ne k e with rfl | hk
    · simp [Nat.testBit_and, h, Nat.testBit_two_pow_self]
    · simp [Nat.testBit_and, Nat.testBit_two_pow_of_ne (Ne.symm hk)]

/-- A slot of the form `i + p` (bit `e` clear in `i`, `p = 2 ^ e`) is never
equal to a slot of the form `i' + r'` with `r'` a larger power of two and bit
`e` clear in `i'`. -/
lemma add_pow_ne_add_pow {e g i i' : Nat} (hi : i &&& 2 ^ e = 0)
    (hi' : i' &&& 2 ^ e = 0) (hg : e < g) : i + 2 ^ e ≠ i' + 2 ^ g := by
  intro hEq
  have h1 : Nat.testBit (i + 2 ^ e) e = true := by
    rw [Nat.add_comm, Nat.testBit_two_pow_add_eq,
      and_two_pow_eq_zero_iff.1 hi]
    rfl
  have h2 : Nat.testBit (i' + 2 ^ g) e = false := by
    rw [Nat.add_comm, Nat.testBit_two_pow_add_gt hg,
      and_two_pow_eq_zero_iff.1 hi']
  rw [hEq, h2] at h1
  exact Bool.false_ne_true h1

/-! ## `ctSort` performs exactly the comparator pattern `netTrace` -/

lemma runTrace_cons (w : Nat) (i j : Nat) (l : List (Nat × Nat)) (s : List Nat) :
    runTrace w ((i, j) :: l) s = runTrace w l (minmaxAt w s i j) := rfl

lemma runTrace_nil (w : Nat) (s : List Nat) : runTrace w [] s = s := rfl

lemma cmpList_cons (i j : Nat) (l : List (Nat × Nat)) (s : List Nat) :
    cmpList ((i, j) :: l) s = cmpList l (cmpAt s (i, j)) := rfl

lemma minmaxAt_set_minmax {w : Nat} {s : List Nat} {a : Nat} {i j : Nat}
    (hi : i < s.length) (hij : i ≠ j) :
    minmaxAt w (s.set i a) i j = (minmax w s a j).2.set i (minmax w s a j).1 := by
  unfold minmaxAt minmax
  simp only [getD_set_self_len hi, getD_set_other hij]
  rw [List.set_set]
  exact List.set_comm _ _ _ hij

lemma rFold_runTrace (w p i : Nat) :
    ∀ r (a : Nat) (s : List Nat), i + p < s.length →
      (rFold w p i r a s).2.set (i + p) (rFold w p i r a s).1 =
        runTrace w (traceR p i r) (s.set (i + p) a) := by
  intro r
  induction r using Nat.strong_induction_on with
  | _ r ih =>
    intro a s hlen
    by_cases hr : p < r
    · have heq : rFold w p i r a s =
          rFold w p i (r >>> 1) (minmax w s a (i + r)).1 (minmax w s a (i + r)).2 := by
        rw [rFold, if_pos hr]
      have htr : traceR p i r = (i + p, i + r) :: traceR p i (r >>> 1) := by
        unfold traceR
        rw [halvings_cons hr]
        rfl
      rw [heq, htr, runTrace_cons,
        minmaxAt_set_minmax hlen (by omega : i + p ≠ i + r)]
      exact ih (r >>> 1) (by rw [Nat.shiftRight_one]; omega) _ _
        (by rw [length_minmax]; exact hlen)
    · have heq : rFold w p i r a s = (a, s) := by
        rw [rFold, if_neg hr]
      have htr : traceR p i r = [] := by
        unfold traceR
        rw [halvings_nil hr]
        rfl
      rw [heq, htr, runTrace_nil]

lemma foldl_qBody_runTrace (w p q : Nat) :
    ∀ (is : List Nat) (s : List Nat), (∀ i ∈ is, i + p < s.length) →
      is.foldl
        (fun t i =>
          if i &&& p == 0 then
            (rFold w p i q (t.getD (i + p) 0) t).2.set (i + p)
              (rFold w p i q (t.getD (i + p) 0) t).1
          else t) s =
      runTrace w (is.flatMap (fun i => if i &&& p == 0 then traceR p i q else [])) s := by
  intro is
  induction is with
  | nil => intro s _; rfl
  | cons i is ih =>
    intro s h
    rw [List.foldl_cons, List.flatMap_cons, runTrace_append]
    by_cases hbit : i &&& p == 0
    · rw [if_pos hbit, if_pos hbit]
      have hstep : (rFold w p i q (s.getD (i + p) 0) s).2.set (i + p)
            (rFold w p i q (s.getD (i + p) 0) s).1 = runTrace w (traceR p i q) s := by
        have hmem := h i (List.mem_cons_self i is)
        have := rFold_runTrace w p i q (s.getD (i + p) 0) s hmem
        rwa [set_getD_self hmem] at this
      rw [hstep]
      exact ih _ (fun j hj => by
        rw [length_runTrace]
        exact h j (List.mem_cons_of_mem _ hj))
    · rw [if_neg hbit, if_neg hbit, runTrace_nil]
      exact ih s (fun j hj => h j (List.mem_cons_of_mem _ hj))

lemma qInner_runTrace (w p q offset : Nat) (s : List Nat) (hpq : p < q) :
    qInner w p q offset s = runTrace w (traceQInner s.length p q offset) s := by
  unfold qInner traceQInner
  apply foldl_qBody_runTrace
  intro i hi
  rw [List.mem_range'] at hi
  obtain ⟨k, hk, rfl⟩ := hi
  omega

lemma qLoop_runTrace (w p : Nat) :
    ∀ q offset s, qLoop w p q offset s = runTrace w (traceQ s.length p q offset) s := by
  intro q
  induction q using Nat.strong_induction_on with
  | _ q ih =>
    intro offset s
    by_cases hpq : p < q
    · have he1 : qLoop w p q offset s =
          qLoop w p (q >>> 1) ((qInner w p q offset s).length - q)
            (qInner w p q offset s) := by
        rw [qLoop, if_pos hpq]
      have he2 : traceQ s.length p q offset =
          traceQInner s.length p q offset ++
            traceQ s.length p (q >>> 1) (s.length - q) := by
        rw [traceQ, if_pos hpq]
      have hlen : (qInner w p q offset s).length = s.length := by
        rw [qInner_runTrace w p q offset s hpq, length_runTrace]
      rw [he1, he2, runTrace_append, ← qInner_runTrace w p q offset s hpq,
        ih (q >>> 1) (by rw [Nat.shiftRight_one]; omega), hlen]
    · rw [qLoop, if_neg hpq, traceQ, if_neg hpq]
      rfl

lemma foldl_aBody_runTrace (w p : Nat) :
    ∀ (is : List Nat) (s : List Nat),
      is.foldl (fun t i => if i &&& p == 0 then minmaxAt w t i (i + p) else t) s =
        runTrace w (is.flatMap (fun i => if i &&& p == 0 then [(i, i + p)] else [])) s := by
  intro is
  induction is with
  | nil => intro s; rfl
  | cons i is ih =>
    intro s
    rw [List.foldl_cons, List.flatMap_cons, runTrace_append]
    by_cases hbit : i &&& p == 0
    · rw [if_pos hbit, if_pos hbit, runTrace_cons, runTrace_nil]
      exact ih _
    · rw [if_neg hbit, if_neg hbit, runTrace_nil]
      exact ih s

lemma phaseA_runTrace (w p : Nat) (s : List Nat) :
    phaseA w p s = runTrace w (traceA s.length p) s := by
  unfold phaseA traceA
  exact foldl_aBody_runTrace w p _ s

lemma pLoop_runTrace (w top : Nat) :
    ∀ p s, pLoop w top p s = runTrace w (traceP s.length top p) s := by
  intro p
  induction p using Nat.strong_induction_on with
  | _ p ih =>
    intro s
    by_cases hp : 0 < p
    · have he1 : pLoop w top p s =
          pLoop w top (p >>> 1) (qLoop w p top 0 (phaseA w p s)) := by
        rw [pLoop, if_pos hp]
      have he2 : traceP s.length top p =
          traceA s.length p ++ traceQ s.length p top 0 ++
            traceP s.length top (p >>> 1) := by
        rw [traceP, if_pos hp]
      rw [he1, he2, runTrace_append, runTrace_append,
        ih (p >>> 1) (by rw [Nat.shiftRight_one]; omega),
        qLoop_runTrace, phaseA_runTrace]
      simp only [length_runTrace]
    · rw [pLoop, if_neg hp, traceP, if_neg hp]
      rfl

lemma ctSort_runTrace (w : Nat) (s : List Nat) :
    ctSort w s = runTrace w (netTrace s.length) s := by
  unfold ctSort netTrace
  by_cases h : 1 < s.length
  · rw [if_pos h, if_pos h, pLoop_runTrace]
  · rw [if_neg h, if_neg h]
    rfl

lemma length_ctSort (w : Nat) (s : List Nat) : (ctSort w s).length = s.length := by
  rw [ctSort_runTrace, length_runTrace]

/-! ## Membership and bounds for the comparator pattern -/

lemma mem_traceR {p i q : Nat} {c : Nat × Nat} :
    c ∈ traceR p i q ↔ ∃ r, r ∈ halvings p q ∧ c = (i + p, i + r) := by
  unfold traceR
  rw [List.mem_map]
  constructor
  · rintro ⟨r, hr, rfl⟩
    exact ⟨r, hr, rfl⟩
  · rintro ⟨r, hr, rfl⟩
    exact ⟨r, hr, rfl⟩

lemma mem_traceQInner {n p q offset : Nat} {c : Nat × Nat} :
    c ∈ traceQInner n p q offset ↔
      ∃ i, offset ≤ i ∧ i + q < n ∧ i &&& p = 0 ∧
        ∃ r, r ∈ halvings p q ∧ c = (i + p, i + r) := by
  unfold traceQInner
  rw [List.mem_flatMap]
  constructor
  · rintro ⟨i, hi, hc⟩
    rw [List.mem_range'] at hi
    obtain ⟨k, hk, rfl⟩ := hi
    by_cases hbit : (offset + 1 * k) &&& p == 0
    · rw [if_pos hbit] at hc
      obtain ⟨r, hr, rfl⟩ := mem_traceR.1 hc
      exact ⟨offset + 1 * k, by omega, by omega, beq_iff_eq.1 hbit, r, hr, rfl⟩
    · rw [if_neg hbit] at hc
      simp at hc
  · rintro ⟨i, hoff, hiq, hbit, r, hr, rfl⟩
    refine ⟨i, ?_, ?_⟩
    · rw [List.mem_range']
      exact ⟨i - offset, by omega, by omega⟩
    · rw [if_pos (beq_iff_eq.2 hbit)]
      exact mem_traceR.2 ⟨r, hr, rfl⟩

lemma mem_traceA {n p : Nat} {c : Nat × Nat} :
    c ∈ traceA n p ↔ ∃ i, i + p < n ∧ i &&& p = 0 ∧ c = (i, i + p) := by
  unfold traceA
  rw [List.mem_flatMap]
  constructor
  · rintro ⟨i, hi, hc⟩
    rw [List.mem_range] at hi
    by_cases hbit : i &&& p == 0
    · rw [if_pos hbit] at hc
      rcases List.mem_singleton.1 hc with rfl
      exact ⟨i, by omega, beq_iff_eq.1 hbit, rfl⟩
    · rw [if_neg hbit] at hc
      simp at hc
  · rintro ⟨i, hi, hbit, rfl⟩
    refine ⟨i, ?_, ?_⟩
    · rw [List.mem_range]
      omega
    · rw [if_pos (beq_iff_eq.2 hbit)]
      exact List.mem_singleton.2 rfl

lemma traceQ_bounds {n p : Nat} :
    ∀ q offset c, c ∈ traceQ n p q offset → c.1 < c.2 ∧ c.2 < n := by
  intro q
  induction q using Nat.strong_induction_on with
  | _ q ih =>
    intro offset c hc
    by_cases hpq : p < q
    · rw [traceQ, if_pos hpq, List.mem_append] at hc
      rcases hc with hc | hc
      · obtain ⟨i, hoff, hiq, hbit, r, hr, rfl⟩ := mem_traceQInner.1 hc
        obtain ⟨hr1, hr2⟩ := halvings_le _ r hr
        exact ⟨by omega, by omega⟩
      · exact ih (q >>> 1) (by rw [Nat.shiftRight_one]; omega) _ c hc
    · rw [traceQ, if_neg hpq] at hc
      simp at hc

lemma traceA_bounds {n p : Nat} (hp : 0 < p) :
    ∀ c ∈ traceA n p, c.1 < c.2 ∧ c.2 < n := by
  intro c hc
  obtain ⟨i, hi, hbit, rfl⟩ := mem_traceA.1 hc
  exact ⟨by omega, by omega⟩

lemma traceP_bounds {n top : Nat} :
    ∀ p c, c ∈ traceP n top p → c.1 < c.2 ∧ c.2 < n := by
  intro p
  induction p using Nat.strong_induction_on with
  | _ p ih =>
    intro c hc
    by_cases hp : 0 < p
    · rw [traceP, if_pos hp, List.mem_append, List.mem_append] at hc
      rcases hc with (hc | hc) | hc
      · exact traceA_bounds hp c hc
      · exact traceQ_bounds _ _ c hc
      · exact ih (p >>> 1) (by rw [Nat.shiftRight_one]; omega) c hc
    · rw [traceP, if_neg hp] at hc
      simp at hc

lemma netTrace_bounds {n : Nat} : ∀ c ∈ netTrace n, c.1 < c.2 ∧ c.2 < n := by
  intro c hc
  unfold netTrace at hc
  by_cases h : 1 < n
  · rw [if_pos h] at hc
    exact traceP_bounds _ c hc
  · rw [if_neg h] at hc
    simp at hc

/-! ## Bounds-checked execution never fails -/

lemma minmaxAtChecked_eq {w : Nat} {s : List Nat} {i j : Nat}
    (hi : i < s.length) (hj : j < s.length) :
    minmaxAtChecked w s i j = some (minmaxAt w s i j) := by
  have hgi : s.getD i 0 = s[i] := by
    simp [List.getD_eq_getElem?_getD, List.getElem?_eq_getElem hi]
  have hgj : s.getD j 0 = s[j] := by
    simp [List.getD_eq_getElem?_getD, List.getElem?_eq_getElem hj]
  unfold minmaxAtChecked minmaxAt
  rw [List.getElem?_eq_getElem hi, List.getElem?_eq_getElem hj, hgi, hgj]

lemma runTraceChecked_cons (w : Nat) (c : Nat × Nat) (l : List (Nat × Nat))
    (s : List Nat) :
    runTraceChecked w (c :: l) s =
      (minmaxAtChecked w s c.1 c.2).bind (runTraceChecked w l) := rfl

lemma runTrace_cons_pair (w : Nat) (c : Nat × Nat) (l : List (Nat × Nat))
    (s : List Nat) :
    runTrace w (c :: l) s = runTrace w l (minmaxAt w s c.1 c.2) := rfl

lemma runTraceChecked_eq (w : Nat) :
    ∀ (l : List (Nat × Nat)) (s : List Nat),
      (∀ c ∈ l, c.1 < s.length ∧ c.2 < s.length) →
      runTraceChecked w l s = some (runTrace w l s) := by
  intro l
  induction l with
  | nil => intro s _; rfl
  | cons c t ih =>
    intro s h
    obtain ⟨h1, h2⟩ := h c (List.mem_cons_self c t)
    rw [runTraceChecked_cons, minmaxAtChecked_eq h1 h2, Option.some_bind,
      runTrace_cons_pair]
    exact ih _ (fun d hd => by
      rw [length_minmaxAt]
      exact h d (List.mem_cons_of_mem _ hd))

/-- C5: `ct_sort` is total: the bounds-checked execution of its comparator
pattern never fails (no out-of-bounds access), every comparator pair is
in bounds, `top` is positive and below the length (so the subtractions
`len - p` and `len - q` never underflow), and the length is preserved.
Termination is inherent: all the Lean functions modelling the loops are
total. -/
theorem c5_ctSort_total (w : Nat) (s : List Nat) :
    runTraceChecked w (netTrace s.length) s = some (ctSort w s) ∧
    (∀ c ∈ netTrace s.length, c.1 < c.2 ∧ c.2 < s.length) ∧
    (1 < s.length → 0 < topPow s.length 0 ∧ topPow s.length 0 < s.length) ∧
    (ctSort w s).length = s.length := by
  refine ⟨?_, netTrace_bounds, ?_, length_ctSort w s⟩
  · rw [ctSort_runTrace]
    apply runTraceChecked_eq
    intro c hc
    have := netTrace_bounds c hc
    omega
  · intro hn
    obtain ⟨k, hk1, hk2, _⟩ := topPow_zero_spec hn
    rw [hk1]
    exact ⟨Nat.pos_pow_of_pos _ (by omega), hk2⟩

/-! ## Boundary lengths -/

lemma netTrace_two : netTrace 2 = [(0, 1)] := by
  have htop : topPow 2 0 = 1 := by
    rw [topPow, if_neg (by decide)]
    decide
  have hq : traceQ 2 1 1 0 = [] := by
    rw [traceQ, if_neg (by decide)]
  have hp0 : traceP 2 1 (1 >>> 1) = [] := by
    rw [traceP, if_neg (by decide)]
  have ha : traceA 2 1 = [(0, 1)] := rfl
  have hp : traceP 2 1 1 = [(0, 1)] := by
    rw [traceP, if_pos (by decide), ha, hq, hp0]
    rfl
  unfold netTrace
  rw [if_pos (by decide), htop, hp]

/-- C7: lengths 0 and 1 are no-ops with an empty comparator pattern, and
length 2 performs exactly one compare-swap, `minmax_at(0, 1)`. -/
theorem c7_boundary_lengths (w : Nat) (s : List Nat) :
    (s.length < 2 → ctSort w s = s) ∧
    netTrace 0 = [] ∧ netTrace 1 = [] ∧ netTrace 2 = [(0, 1)] ∧
    (s.length = 2 → ctSort w s = minmaxAt w s 0 1) := by
  refine ⟨?_, ?_, ?_, netTrace_two, ?_⟩
  · intro h
    unfold ctSort
    rw [if_neg (by omega)]
  · unfold netTrace
    rw [if_neg (by decide)]
  · unfold netTrace
    rw [if_neg (by decide)]
  · intro h
    rw [ctSort_runTrace, h, netTrace_two, runTrace_cons, runTrace_nil]

theorem c7_boundary_lengths_witness :
    (([7] : List Nat).length < 2 ∧ ctSort 8 [7] = [7]) ∧
    (([3, 1] : List Nat).length = 2 ∧ ctSort 8 [3, 1] = minmaxAt 8 [3, 1] 0 1) :=
  ⟨⟨by decide, (c7_boundary_lengths 8 [7]).1 (by decide)⟩,
   ⟨by decide, (c7_boundary_lengths 8 [3, 1]).2.2.2.2 (by decide)⟩⟩

/-! ## The instrumented sort records exactly `netTrace` -/

lemma rFoldT_spec (w p i : Nat) :
    ∀ r a (s : List Nat) (tr : List (Nat × Nat)),
      rFoldT w p i r a s tr =
        ((rFold w p i r a s).1, (rFold w p i r a s).2, tr ++ traceR p i r) := by
  intro r
  induction r using Nat.strong_induction_on with
  | _ r ih =>
    intro a s tr
    by_cases hr : p < r
    · have h1 : rFoldT w p i r a s tr =
          rFoldT w p i (r >>> 1) (minmax w s a (i + r)).1 (minmax w s a (i + r)).2
            (tr ++ [(i + p, i + r)]) := by
        rw [rFoldT, if_pos hr]
      have h2 : rFold w p i r a s =
          rFold w p i (r >>> 1) (minmax w s a (i + r)).1 (minmax w s a (i + r)).2 := by
        rw [rFold, if_pos hr]
      have h3 : traceR p i r = (i + p, i + r) :: traceR p i (r >>> 1) := by
        unfold traceR
        rw [halvings_cons hr]
        rfl
      rw [h1, h2, h3, ih (r >>> 1) (by rw [Nat.shiftRight_one]; omega)]
      simp
    · have h2 : rFold w p i r a s = (a, s) := by
        rw [rFold, if_neg hr]
      have h3 : traceR p i r = [] := by
        unfold traceR
        rw [halvings_nil hr]
        rfl
      rw [rFoldT, if_neg hr, h2, h3, List.append_nil]

lemma foldl_qBodyT_spec (w p q : Nat) :
    ∀ (is : List Nat) (s : List Nat) (tr : List (Nat × Nat)),
      is.foldl
        (fun t i =>
          if i &&& p == 0 then
            let f := rFoldT w p i q (t.1.getD (i + p) 0) t.1 t.2
            (f.2.1.set (i + p) f.1, f.2.2)
          else t) (s, tr) =
      (is.foldl
        (fun t i =>
          if i &&& p == 0 then
            let f := rFold w p i q (t.getD (i + p) 0) t
            f.2.set (i + p) f.1
          else t) s,
        tr ++ is.flatMap (fun i => if i &&& p == 0 then traceR p i q else [])) := by
  intro is
  induction is with
  | nil => intro s tr; simp
  | cons i is ih =>
    intro s tr
    rw [List.foldl_cons, List.foldl_cons, List.flatMap_cons]
    by_cases hbit : i &&& p == 0
    · rw [if_pos hbit, if_pos hbit, if_pos hbit]
      show (is.foldl _
          ((rFoldT w p i q (s.getD (i + p) 0) s tr).2.1.set (i + p)
              (rFoldT w p i q (s.getD (i + p) 0) s tr).1,
            (rFoldT w p i q (s.getD (i + p) 0) s tr).2.2)) = _
      rw [rFoldT_spec]
      show (is.foldl _
          ((rFold w p i q (s.getD (i + p) 0) s).2.set (i + p)
              (rFold w p i q (s.getD (i + p) 0) s).1,
            tr ++ traceR p i q)) = _
      rw [ih]
      simp
    · rw [if_neg hbit, if_neg hbit, if_neg hbit]
      rw [ih]
      simp

lemma qInnerT_spec (w p q offset : Nat) (s : List Nat) (tr : List (Nat × Nat)) :
    qInnerT w p q offset (s, tr) =
      (qInner w p q offset s, tr ++ traceQInner s.length p q offset) :=
  foldl_qBodyT_spec w p q _ s tr

lemma length_qInner (w p q offset : Nat) (s : List Nat) (hpq : p < q) :
    (qInner w p q offset s).length = s.length := by
  rw [qInner_runTrace w p q offset s hpq, length_runTrace]

lemma qLoopT_spec (w p : Nat) :
    ∀ q offset (s : List Nat) (tr : List (Nat × Nat)),
      qLoopT w p q offset (s, tr) =
        (qLoop w p q offset s, tr ++ traceQ s.length p q offset) := by
  intro q
  induction q using Nat.strong_induction_on with
  | _ q ih =>
    intro offset s tr
    by_cases hpq : p < q
    · have h1 : qLoopT w p q offset (s, tr) =
          qLoopT w p (q >>> 1) ((qInnerT w p q offset (s, tr)).1.length - q)
            (qInnerT w p q offset (s, tr)) := by
        rw [qLoopT, if_pos hpq]
      have h2 : qLoop w p q offset s =
          qLoop w p (q >>> 1) ((qInner w p q offset s).length - q)
            (qInner w p q offset s) := by
        rw [qLoop, if_pos hpq]
      have h3 : traceQ s.length p q offset =
          traceQInner s.length p q offset ++
            traceQ s.length p (q >>> 1) (s.length - q) := by
        rw [traceQ, if_pos hpq]
      rw [h1, qInnerT_spec]
      show qLoopT w p (q >>> 1) ((qInner w p q offset s).length - q)
          (qInner w p q offset s, tr ++ traceQInner s.length p q offset) = _
      rw [ih (q >>> 1) (by rw [Nat.shiftRight_one]; omega), h2, h3,
        length_qInner w p q offset s hpq, List.append_assoc]
    · rw [qLoopT, if_neg hpq, qLoop, if_neg hpq, traceQ, if_neg hpq,
        List.append_nil]

lemma foldl_aBodyT_spec (w p : Nat) :
    ∀ (is : List Nat) (s : List Nat) (tr : List (Nat × Nat)),
      is.foldl
        (fun t i =>
          if i &&& p == 0 then (minmaxAt w t.1 i (i + p), t.2 ++ [(i, i + p)])
          else t) (s, tr) =
      (is.foldl (fun t i => if i &&& p == 0 then minmaxAt w t i (i + p) else t) s,
        tr ++ is.flatMap (fun i => if i &&& p == 0 then [(i, i + p)] else [])) := by
  intro is
  induction is with
  | nil => intro s tr; simp
  | cons i is ih =>
    intro s tr
    rw [List.foldl_cons, List.foldl_cons, List.flatMap_cons]
    by_cases hbit : i &&& p == 0
    · rw [if_pos hbit, if_pos hbit, if_pos hbit, ih]
      simp
    · rw [if_neg hbit, if_neg hbit, if_neg hbit, ih]
      simp

lemma phaseAT_spec (w p : Nat) (s : List Nat) (tr : List (Nat × Nat)) :
    phaseAT w p (s, tr) = (phaseA w p s, tr ++ traceA s.length p) :=
  foldl_aBodyT_spec w p _ s tr

lemma length_phaseA (w p : Nat) (s : List Nat) :
    (phaseA w p s).length = s.length := by
  rw [phaseA_runTrace, length_runTrace]

lemma length_qLoop (w p q offset : Nat) (s : List Nat) :
    (qLoop w p q offset s).length = s.length := by
  rw [qLoop_runTrace, length_runTrace]

lemma pLoopT_spec (w top : Nat) :
    ∀ p (s : List Nat) (tr : List (Nat × Nat)),
      pLoopT w top p (s, tr) = (pLoop w top p s, tr ++ traceP s.length top p) := by
  intro p
  induction p using Nat.strong_induction_on with
  | _ p ih =>
    intro s tr
    by_cases hp : 0 < p
    · have h1 : pLoopT w top p (s, tr) =
          pLoopT w top (p >>> 1) (qLoopT w p top 0 (phaseAT w p (s, tr))) := by
        rw [pLoopT, if_pos hp]
      have h2 : pLoop w top p s =
          pLoop w top (p >>> 1) (qLoop w p top 0 (phaseA w p s)) := by
        rw [pLoop, if_pos hp]
      have h3 : traceP s.length top p =
          traceA s.length p ++ traceQ s.length p top 0 ++
            traceP s.length top (p >>> 1) := by
        rw [traceP, if_pos hp]
      rw [h1, phaseAT_spec, qLoopT_spec,
        ih (p >>> 1) (by rw [Nat.shiftRight_one]; omega), h2, h3,
        length_phaseA, length_qLoop, length_phaseA]
      simp [List.append_assoc]
    · rw [pLoopT, if_neg hp, pLoop, if_neg hp, traceP, if_neg hp,
        List.append_nil]

lemma ctSortT_spec (w : Nat) (s : List Nat) :
    ctSortT w s = (ctSort w s, netTrace s.length) := by
  unfold ctSortT ctSort netTrace
  by_cases h : 1 < s.length
  · rw [if_pos h, if_pos h, if_pos h, pLoopT_spec]
    rfl
  · rw [if_neg h, if_neg h, if_neg h]

/-- C3: for any two same-length sequences, the sequence of comparator index
pairs performed by `ct_sort` is identical, regardless of element values: the
recorded trace of the instrumented sort equals `netTrace` of the length. -/
theorem c3_trace_depends_only_on_length (w : Nat) (s₁ s₂ : List Nat)
    (hlen : s₁.length = s₂.length) : (ctSortT w s₁).2 = (ctSortT w s₂).2 := by
  rw [ctSortT_spec, ctSortT_spec, hlen]

theorem c3_trace_depends_only_on_length_witness :
    ([3, 1, 4, 1] : List Nat).length = ([255, 0, 9, 200] : List Nat).length ∧
    (ctSortT 8 [3, 1, 4, 1]).2 = (ctSortT 8 [255, 0, 9, 200]).2 :=
  ⟨by decide,
    c3_trace_depends_only_on_length 8 [3, 1, 4, 1] [255, 0, 9, 200] (by decide)⟩

/-! ## Bridging to the mathematical compare-exchange -/

lemma bounded_cmpAt {w : Nat} {s : List Nat} (hw : 1 ≤ w)
    (hb : ∀ x ∈ s, x < 2 ^ w) (c : Nat × Nat) :
    ∀ x ∈ cmpAt s c, x < 2 ^ w := by
  intro x hx
  unfold cmpAt at hx
  rcases List.mem_or_eq_of_mem_set hx with hx | rfl
  · rcases List.mem_or_eq_of_mem_set hx with hx | rfl
    · exact hb x hx
    · exact Nat.lt_of_le_of_lt (Nat.min_le_left _ _) (getD_lt_of_bounded hw hb _)
  · exact max_lt (getD_lt_of_bounded hw hb _) (getD_lt_of_bounded hw hb _)

lemma runTrace_eq_cmpList {w : Nat} (hw : 1 ≤ w) :
    ∀ (l : List (Nat × Nat)) (s : List Nat), (∀ x ∈ s, x < 2 ^ w) →
      runTrace w l s = cmpList l s := by
  intro l
  induction l with
  | nil => intro s _; rfl
  | cons c t ih =>
    intro s hb
    rw [runTrace_cons_pair, minmaxAt_eq_cmpAt c.1 c.2 hw hb]
    exact ih _ (bounded_cmpAt hw hb _)

/-! ## Sorted sequences are fixed points -/

lemma sorted_getD_le {s : List Nat} (hs : List.Sorted (· ≤ ·) s) {i j : Nat}
    (hij : i < j) (hj : j < s.length) : s.getD i 0 ≤ s.getD j 0 := by
  have hi : i < s.length := Nat.lt_trans hij hj
  have h1 : s.getD i 0 = s[i] := by
    simp [List.getD_eq_getElem?_getD, List.getElem?_eq_getElem hi]
  have h2 : s.getD j 0 = s[j] := by
    simp [List.getD_eq_getElem?_getD, List.getElem?_eq_getElem hj]
  rw [h1, h2]
  have := hs.rel_get_of_lt (a := ⟨i, hi⟩) (b := ⟨j, hj⟩) (Fin.mk_lt_mk.2 hij)
  simpa using this

lemma cmpAt_sorted_noop {s : List Nat} {c : Nat × Nat}
    (hs : List.Sorted (· ≤ ·) s) (hc1 : c.1 < c.2) (hc2 : c.2 < s.length) :
    cmpAt s c = s := by
  have hle := sorted_getD_le hs hc1 hc2
  unfold cmpAt
  rw [Nat.min_eq_left hle, Nat.max_eq_right hle,
    set_getD_self (Nat.lt_trans hc1 hc2), set_getD_self hc2]

lemma cmpList_sorted_noop :
    ∀ (l : List (Nat × Nat)) (s : List Nat), List.Sorted (· ≤ ·) s →
      (∀ c ∈ l, c.1 < c.2 ∧ c.2 < s.length) → cmpList l s = s := by
  intro l
  induction l with
  | nil => intro s _ _; rfl
  | cons c t ih =>
    intro s hs h
    obtain ⟨h1, h2⟩ := h c (List.mem_cons_self c t)
    rw [cmpList_cons c.1 c.2 t s]
    rw [show cmpAt s (c.1, c.2) = cmpAt s c from rfl, cmpAt_sorted_noop hs h1 h2]
    exact ih s hs (fun d hd => h d (List.mem_cons_of_mem _ hd))

/-! ## Compare-exchange is a permutation -/

lemma cons_set_perm :
    ∀ (t : List Nat) (k : Nat) (x : Nat), k < t.length →
      (t.getD k 0 :: t.set k x).Perm (x :: t) := by
  intro t
  induction t with
  | nil => intro k x hk; simp at hk
  | cons y u ih =>
    intro k x hk
    cases k with
    | zero =>
      exact List.Perm.swap x y u
    | succ m =>
      have hm : m < u.length := by simpa using hk
      have h1 : (u.getD m 0 :: y :: u.set m x).Perm (y :: u.getD m 0 :: u.set m x) :=
        List.Perm.swap y (u.getD m 0) (u.set m x)
      have h2 : (y :: u.getD m 0 :: u.set m x).Perm (y :: x :: u) :=
        List.Perm.cons y (ih m x hm)
      have h3 : (y :: x :: u).Perm (x :: y :: u) := List.Perm.swap x y u
      exact (h1.trans h2).trans h3

lemma set_set_perm :
    ∀ (s : List Nat) (i j : Nat), i < j → j < s.length →
      ((s.set i (s.getD j 0)).set j (s.getD i 0)).Perm s := by
  intro s
  induction s with
  | nil => intro i j _ hj; simp at hj
  | cons y u ih =>
    intro i j hij hj
    cases i with
    | zero =>
      obtain ⟨k, rfl⟩ : ∃ k, j = k + 1 := ⟨j - 1, by omega⟩
      have hk : k < u.length := by simpa using hj
      exact cons_set_perm u k y hk
    | succ m =>
      obtain ⟨k, rfl⟩ : ∃ k, j = k + 1 := ⟨j - 1, by omega⟩
      have hk : k < u.length := by simpa using hj
      exact List.Perm.cons y (ih m k (by omega) hk)

lemma cmpAt_perm {s : List Nat} (c : Nat × Nat) (hc1 : c.1 < c.2)
    (hc2 : c.2 < s.length) : (cmpAt s c).Perm s := by
  have hi : c.1 < s.length := Nat.lt_trans hc1 hc2
  unfold cmpAt
  by_cases h : s.getD c.1 0 ≤ s.getD c.2 0
  · rw [Nat.min_eq_left h, Nat.max_eq_right h, set_getD_self hi, set_getD_self hc2]
  · have h' : s.getD c.2 0 ≤ s.getD c.1 0 := Nat.le_of_not_le h
    rw [Nat.min_eq_right h', Nat.max_eq_left h']
    exact set_set_perm s c.1 c.2 hc1 hc2

lemma cmpList_perm :
    ∀ (l : List (Nat × Nat)) (s : List Nat),
      (∀ c ∈ l, c.1 < c.2 ∧ c.2 < s.length) → (cmpList l s).Perm s := by
  intro l
  induction l with
  | nil => intro s _; exact List.Perm.refl s
  | cons c t ih =>
    intro s h
    obtain ⟨h1, h2⟩ := h c (List.mem_cons_self c t)
    have hstep : (cmpAt s c).Perm s := cmpAt_perm c h1 h2
    have htail : (cmpList t (cmpAt s c)).Perm (cmpAt s c) := by
      apply ih
      intro d hd
      rw [length_cmpAt]
      exact h d (List.mem_cons_of_mem _ hd)
    exact List.Perm.trans htail hstep

/-! ## Reordering lists of non-interfering comparators -/

lemma set_set_swap (s : List Nat) {i j k m : Nat} (a b u v : Nat)
    (hki : k ≠ i) (hkj : k ≠ j) (hmi : m ≠ i) (hmj : m ≠ j) :
    (((s.set i a).set j b).set k u).set m v =
      (((s.set k u).set m v).set i a).set j b := by
  apply List.ext_getElem?
  intro n
  simp only [List.getElem?_set, List.length_set]
  by_cases h1 : i = n <;> by_cases h2 : j = n <;> by_cases h3 : k = n <;>
    by_cases h4 : m = n <;> simp_all

lemma cmpAt_comm {s : List Nat} {c d : Nat × Nat} (h : ¬ Touches c d) :
    cmpAt (cmpAt s c) d = cmpAt (cmpAt s d) c := by
  unfold Touches at h
  push_neg at h
  obtain ⟨h11, h12, h21, h22⟩ := h
  unfold cmpAt
  rw [getD_set_other h21, getD_set_other h11, getD_set_other h22,
    getD_set_other h12, getD_set_other (Ne.symm h12), getD_set_other (Ne.symm h11),
    getD_set_other (Ne.symm h22), getD_set_other (Ne.symm h21)]
  exact set_set_swap s _ _ _ _ (Ne.symm h11) (Ne.symm h21) (Ne.symm h12)
    (Ne.symm h22)

lemma cmpList_bubble :
    ∀ (u v : List (Nat × Nat)) (c : Nat × Nat) (s : List Nat),
      (∀ d ∈ u, ¬ Touches c d) →
      cmpList (u ++ c :: v) s = cmpList (u ++ v) (cmpAt s c) := by
  intro u
  induction u with
  | nil => intro v c s _; rfl
  | cons d u ih =>
    intro v c s h
    show cmpList (u ++ c :: v) (cmpAt s d) = cmpList (u ++ v) (cmpAt (cmpAt s c) d)
    rw [ih v c (cmpAt s d) (fun e he => h e (List.mem_cons_of_mem _ he)),
      cmpAt_comm (h d (List.mem_cons_self d u))]

lemma cmpList_reorder (K1 K2 : Nat × Nat → Nat × Nat → Prop)
    (hK2irr : ∀ c, ¬ K2 c c) :
    ∀ (l₁ l₂ : List (Nat × Nat)) (s : List Nat),
      l₁.Perm l₂ → l₁.Pairwise K1 → l₂.Pairwise K2 →
      (∀ c d, c ∈ l₁ → d ∈ l₁ → Touches c d → K1 c d → ¬ K2 d c) →
      cmpList l₁ s = cmpList l₂ s := by
  intro l₁
  induction l₁ with
  | nil =>
    intro l₂ s hperm _ _ _
    have h2 : l₂ = [] := hperm.symm.eq_nil
    rw [h2]
  | cons c t ih =>
    intro l₂ s hperm hp1 hp2 hK
    have hc : c ∈ l₂ := hperm.mem_iff.1 (List.mem_cons_self c t)
    obtain ⟨u, v, rfl⟩ := List.append_of_mem hc
    have hp1' := List.pairwise_cons.1 hp1
    have hu : ∀ d ∈ u, ¬ Touches c d := by
      intro d hd hT
      have hK2 : K2 d c :=
        (List.pairwise_append.1 hp2).2.2 d hd c (List.mem_cons_self c v)
      have hdl : d ∈ c :: t :=
        hperm.mem_iff.2 (List.mem_append_left _ hd)
      have hdt : d ∈ t := by
        rcases List.mem_cons.1 hdl with rfl | hmem
        · exact absurd hK2 (hK2irr d)
        · exact hmem
      exact hK c d (List.mem_cons_self c t) (List.mem_cons_of_mem _ hdt) hT
        (hp1'.1 d hdt) hK2
    rw [cmpList_bubble u v c s hu]
    show cmpList t (cmpAt s c) = _
    apply ih
    · exact (List.perm_cons c).1 (hperm.trans List.perm_middle)
    · exact hp1'.2
    · exact List.Pairwise.sublist
        (List.Sublist.append_left (List.sublist_cons_self c v) u) hp2
    · intro a b ha hb
      exact hK a b (List.mem_cons_of_mem _ ha) (List.mem_cons_of_mem _ hb)

/-! ## The block order of phase B agrees with the distance-major order -/

lemma passesB_eq_flatMap {n p : Nat} :
    ∀ q, passesB n p q = (halvings p q).flatMap (fun r => passB n p r) := by
  intro q
  induction q using Nat.strong_induction_on with
  | _ q ih =>
    by_cases h : p < q
    · rw [passesB, if_pos h, halvings_cons h, List.flatMap_cons,
        ih (q >>> 1) (by rw [Nat.shiftRight_one]; omega)]
    · rw [passesB, if_neg h, halvings_nil h, List.flatMap_nil]

lemma mem_passB {n p r : Nat} {c : Nat × Nat} :
    c ∈ passB n p r ↔ ∃ i, i + r < n ∧ i &&& p = 0 ∧ c = (i + p, i + r) := by
  unfold passB
  rw [List.mem_map]
  constructor
  · rintro ⟨i, hi, rfl⟩
    rw [List.mem_filter, List.mem_range] at hi
    exact ⟨i, by omega, beq_iff_eq.1 hi.2, rfl⟩
  · rintro ⟨i, hi, hbit, rfl⟩
    refine ⟨i, ?_, rfl⟩
    rw [List.mem_filter, List.mem_range]
    exact ⟨by omega, beq_iff_eq.2 hbit⟩

lemma mem_passesB {n p q : Nat} {c : Nat × Nat} :
    c ∈ passesB n p q ↔
      ∃ r, r ∈ halvings p q ∧ ∃ i, i + r < n ∧ i &&& p = 0 ∧
        c = (i + p, i + r) := by
  rw [passesB_eq_flatMap, List.mem_flatMap]
  constructor
  · rintro ⟨r, hr, hc⟩
    exact ⟨r, hr, mem_passB.1 hc⟩
  · rintro ⟨r, hr, h⟩
    exact ⟨r, hr, mem_passB.2 h⟩

lemma mem_traceQ_chain {n p : Nat} (hp : 0 < p) :
    ∀ f (c : Nat × Nat),
      c ∈ traceQ n p (2 ^ f) (n - 2 * 2 ^ f) ↔
        ∃ r, r ∈ halvings p (2 ^ f) ∧ ∃ i, n - 2 * 2 ^ f ≤ i ∧ i + r < n ∧
          i &&& p = 0 ∧ c = (i + p, i + r) := by
  intro f
  induction f with
  | zero =>
    intro c
    have h1 : ¬ p < 2 ^ 0 := Nat.not_lt.2 hp
    rw [traceQ, if_neg h1, halvings_nil h1]
    simp
  | succ f ih =>
    intro c
    by_cases h : p < 2 ^ (f + 1)
    · have hsh : (2 ^ (f + 1)) >>> 1 = 2 ^ f := by
        rw [Nat.shiftRight_one, Nat.pow_succ, Nat.mul_div_cancel]
        omega
      have hoff : n - 2 ^ (f + 1) = n - 2 * 2 ^ f := by
        have : 2 ^ (f + 1) = 2 * 2 ^ f := by
          rw [Nat.pow_succ]
          omega
        omega
      rw [traceQ, if_pos h, hsh, hoff, List.mem_append, ih, halvings_cons h, hsh]
      have hQ : 2 ^ (f + 1) = 2 * 2 ^ f := by
        rw [Nat.pow_succ]
        omega
      constructor
      · rintro (hc | hc)
        · obtain ⟨i, hoff2, hiq, hbit, r, hr, rfl⟩ := mem_traceQInner.1 hc
          obtain ⟨hr1, hr2⟩ := halvings_le _ r hr
          rw [halvings_cons h, hsh] at hr
          exact ⟨r, hr, i, by omega, by omega, hbit, rfl⟩
        · obtain ⟨r, hr, i, h1, h2, h3, rfl⟩ := hc
          exact ⟨r, List.mem_cons_of_mem _ hr, i, by omega, h2, h3, rfl⟩
      · rintro ⟨r, hr, i, h1, h2, h3, rfl⟩
        rcases List.mem_cons.1 hr with rfl | hr
        · left
          refine mem_traceQInner.2 ⟨i, by omega, by omega, h3, ?_⟩
          refine ⟨2 ^ (f + 1), ?_, rfl⟩
          rw [halvings_cons h, hsh]
          exact List.mem_cons_self _ _
        · by_cases hcase : n - 2 * 2 ^ f ≤ i
          · right
            exact ⟨r, hr, i, hcase, h2, h3, rfl⟩
          · left
            obtain ⟨hr1, hr2⟩ := halvings_le _ r hr
            refine mem_traceQInner.2 ⟨i, by omega, by omega, h3, ?_⟩
            refine ⟨r, ?_, rfl⟩
            rw [halvings_cons h, hsh]
            exact List.mem_cons_of_mem _ hr
    · rw [traceQ, if_neg h, halvings_nil h]
      simp

lemma traceQ_lower {n p : Nat} :
    ∀ q offset, offset ≤ n - q →
      ∀ c ∈ traceQ n p q offset, offset + p ≤ c.1 := by
  intro q
  induction q using Nat.strong_induction_on with
  | _ q ih =>
    intro offset hoff c hc
    by_cases h : p < q
    · rw [traceQ, if_pos h, List.mem_append] at hc
      rcases hc with hc | hc
      · obtain ⟨i, h1, h2, h3, r, hr, rfl⟩ := mem_traceQInner.1 hc
        show offset + p ≤ i + p
        omega
      · have := ih (q >>> 1) (by rw [Nat.shiftRight_one]; omega) (n - q)
          (by rw [Nat.shiftRight_one]; omega) c hc
        omega
    · rw [traceQ, if_neg h] at hc
      simp at hc

lemma traceR_pairwise {p i q : Nat} : (traceR p i q).Pairwise orderB1 := by
  unfold traceR
  rw [List.pairwise_map]
  apply (halvings_sorted q).imp
  intro a b hab
  right
  exact ⟨rfl, by omega⟩

lemma traceQInner_pairwise {n p q offset : Nat} :
    (traceQInner n p q offset).Pairwise orderB1 := by
  unfold traceQInner
  rw [List.pairwise_flatMap]
  constructor
  · intro a _
    by_cases hbit : a &&& p == 0
    · rw [if_pos hbit]
      exact traceR_pairwise
    · rw [if_neg hbit]
      exact List.Pairwise.nil
  · apply (List.pairwise_lt_range' offset _).imp
    intro a b hab x hx y hy
    by_cases ha : a &&& p == 0
    · rw [if_pos ha] at hx
      by_cases hb : b &&& p == 0
      · rw [if_pos hb] at hy
        obtain ⟨r, hr, rfl⟩ := mem_traceR.1 hx
        obtain ⟨r', hr', rfl⟩ := mem_traceR.1 hy
        left
        show a + p < b + p
        omega
      · rw [if_neg hb] at hy
        simp at hy
    · rw [if_neg ha] at hx
      simp at hx

lemma traceQ_pairwise {n p : Nat} :
    ∀ q offset, (traceQ n p q offset).Pairwise orderB1 := by
  intro q
  induction q using Nat.strong_induction_on with
  | _ q ih =>
    intro offset
    by_cases h : p < q
    · rw [traceQ, if_pos h, List.pairwise_append]
      refine ⟨traceQInner_pairwise,
        ih (q >>> 1) (by rw [Nat.shiftRight_one]; omega) _, ?_⟩
      intro c hc d hd
      obtain ⟨i, h1, h2, h3, r, hr, rfl⟩ := mem_traceQInner.1 hc
      have hd1 := traceQ_lower (q >>> 1) (n - q)
        (by rw [Nat.shiftRight_one]; omega) d hd
      left
      show i + p < d.1
      omega
    · rw [traceQ, if_neg h]
      exact List.Pairwise.nil

lemma passB_pairwise {n p r : Nat} : (passB n p r).Pairwise orderB2 := by
  unfold passB
  rw [List.pairwise_map]
  have hfil : (((List.range (n - r)).filter (fun i => i &&& p == 0))).Pairwise
      (· < ·) :=
    List.Pairwise.sublist (List.filter_sublist _) (List.pairwise_lt_range _)
  apply hfil.imp
  intro a b hab
  right
  constructor
  · show (a + r) - (a + p) = (b + r) - (b + p)
    omega
  · show a + p < b + p
    omega

lemma passesB_pairwise {n p : Nat} :
    ∀ q, (passesB n p q).Pairwise orderB2 := by
  intro q
  induction q using Nat.strong_induction_on with
  | _ q ih =>
    by_cases h : p < q
    · rw [passesB, if_pos h, List.pairwise_append]
      refine ⟨passB_pairwise,
        ih (q >>> 1) (by rw [Nat.shiftRight_one]; omega), ?_⟩
      intro c hc d hd
      obtain ⟨i, hi1, hi2, rfl⟩ := mem_passB.1 hc
      obtain ⟨r', hr', i', hi1', hi2', rfl⟩ := mem_passesB.1 hd
      obtain ⟨hr'1, hr'2⟩ := halvings_le _ r' hr'
      left
      show (i' + r') - (i' + p) < (i + q) - (i + p)
      rw [Nat.shiftRight_one] at hr'2
      omega
    · rw [passesB, if_neg h]
      exact List.Pairwise.nil

lemma orderB1_irrefl (c : Nat × Nat) : ¬ orderB1 c c := by
  unfold orderB1
  omega

lemma orderB2_irrefl (c : Nat × Nat) : ¬ orderB2 c c := by
  unfold orderB2
  omega

lemma nodup_of_pairwise_orderB1 {l : List (Nat × Nat)}
    (h : l.Pairwise orderB1) : l.Nodup := by
  apply h.imp
  intro a b hab
  rintro rfl
  exact orderB1_irrefl _ hab

lemma nodup_of_pairwise_orderB2 {l : List (Nat × Nat)}
    (h : l.Pairwise orderB2) : l.Nodup := by
  apply h.imp
  intro a b hab
  rintro rfl
  exact orderB2_irrefl _ hab

lemma cmpList_traceQ_eq_passesB {n e f : Nat} (hn : n ≤ 2 * 2 ^ f)
    (s : List Nat) :
    cmpList (traceQ n (2 ^ e) (2 ^ f) 0) s =
      cmpList (passesB n (2 ^ e) (2 ^ f)) s := by
  have hppos : 0 < 2 ^ e := Nat.pos_pow_of_pos _ (by omega)
  have h0 : traceQ n (2 ^ e) (2 ^ f) 0 = traceQ n (2 ^ e) (2 ^ f) (n - 2 * 2 ^ f) := by
    have : n - 2 * 2 ^ f = 0 := by omega
    rw [this]
  have hmem : ∀ c, c ∈ traceQ n (2 ^ e) (2 ^ f) 0 ↔ c ∈ passesB n (2 ^ e) (2 ^ f) := by
    intro c
    rw [h0, mem_traceQ_chain hppos f c, mem_passesB]
    constructor
    · rintro ⟨r, hr, i, _, h2, h3, rfl⟩
      exact ⟨r, hr, i, h2, h3, rfl⟩
    · rintro ⟨r, hr, i, h2, h3, rfl⟩
      exact ⟨r, hr, i, by omega, h2, h3, rfl⟩
  have hpair1 : (traceQ n (2 ^ e) (2 ^ f) 0).Pairwise orderB1 := traceQ_pairwise _ _
  have hpair2 : (passesB n (2 ^ e) (2 ^ f)).Pairwise orderB2 := passesB_pairwise _
  have hperm : (traceQ n (2 ^ e) (2 ^ f) 0).Perm (passesB n (2 ^ e) (2 ^ f)) :=
    (List.perm_ext_iff_of_nodup (nodup_of_pairwise_orderB1 hpair1)
      (nodup_of_pairwise_orderB2 hpair2)).2 hmem
  apply cmpList_reorder orderB1 orderB2 orderB2_irrefl _ _ s hperm hpair1 hpair2
  intro c d hc hd hT h1
  obtain ⟨r, hr, i, hir, hbit, rfl⟩ := mem_passesB.1 ((hmem c).1 hc)
  obtain ⟨r', hr', i', hir', hbit', rfl⟩ := mem_passesB.1 ((hmem d).1 hd)
  obtain ⟨hrp, hrq⟩ := halvings_le _ r hr
  obtain ⟨hrp', hrq'⟩ := halvings_le _ r' hr'
  obtain ⟨g, hgf, rfl⟩ := halvings_pow f r hr
  obtain ⟨g', hgf', rfl⟩ := halvings_pow f r' hr'
  have heg : e < g := (Nat.pow_lt_pow_iff_right (by omega)).1 hrp
  have heg' : e < g' := (Nat.pow_lt_pow_iff_right (by omega)).1 hrp'
  intro h2
  unfold orderB1 at h1
  unfold orderB2 at h2
  unfold Touches at hT
  dsimp only at h1 h2 hT
  rcases hT with hT | hT | hT | hT
  · omega
  · exact add_pow_ne_add_pow hbit hbit' heg' hT
  · exact add_pow_ne_add_pow hbit' hbit heg hT.symm
  · omega

/-! ## More bit-level helpers -/

lemma and_pow_zero_iff_mod {e j : Nat} :
    j &&& 2 ^ e = 0 ↔ j % 2 ^ (e + 1) < 2 ^ e := by
  rw [and_two_pow_eq_zero_iff, Nat.testBit_to_div_mod]
  have hmod : j % 2 ^ (e + 1) = j % 2 ^ e + 2 ^ e * (j / 2 ^ e % 2) := by
    rw [Nat.pow_succ, Nat.mod_mul]
  have h1 : j % 2 ^ e < 2 ^ e := Nat.mod_lt _ (Nat.pos_pow_of_pos _ (by omega))
  have h2 : j / 2 ^ e % 2 < 2 := Nat.mod_lt _ (by omega)
  constructor
  · intro h
    have h3 : j / 2 ^ e % 2 ≠ 1 := by simpa using h
    have h4 : j / 2 ^ e % 2 = 0 := by omega
    rw [h4, Nat.mul_zero, Nat.add_zero] at hmod
    omega
  · intro h
    simp only [decide_eq_false_iff_not]
    intro h5
    rw [h5, Nat.mul_one] at hmod
    omega

lemma and_pow_zero_add_multiple_iff {e j c : Nat} :
    (j + c * 2 ^ (e + 1)) &&& 2 ^ e = 0 ↔ j &&& 2 ^ e = 0 := by
  rw [and_pow_zero_iff_mod, and_pow_zero_iff_mod, Nat.add_mul_mod_self_right]

lemma bit_set_decompose {e j : Nat} (h : ¬ j &&& 2 ^ e = 0) :
    2 ^ e ≤ j ∧ (j - 2 ^ e) &&& 2 ^ e = 0 := by
  rw [and_pow_zero_iff_mod] at h
  have h1 : j % 2 ^ (e + 1) < 2 ^ (e + 1) :=
    Nat.mod_lt _ (Nat.pos_pow_of_pos _ (by omega))
  have h2 := Nat.div_add_mod j (2 ^ (e + 1))
  have hee : 2 ^ (e + 1) = 2 * 2 ^ e := by
    rw [Nat.pow_succ]
    omega
  have hle : 2 ^ e ≤ j := by omega
  refine ⟨hle, ?_⟩
  rw [and_pow_zero_iff_mod]
  have h3 : j - 2 ^ e =
      2 ^ (e + 1) * (j / 2 ^ (e + 1)) + (j % 2 ^ (e + 1) - 2 ^ e) := by
    omega
  rw [h3, Nat.mul_add_mod, Nat.mod_eq_of_lt (by omega)]
  omega

lemma clear_ne_add_pow {e i i' : Nat} (hi : i &&& 2 ^ e = 0)
    (hi' : i' &&& 2 ^ e = 0) : i ≠ i' + 2 ^ e := by
  intro hEq
  have h1 : Nat.testBit (i' + 2 ^ e) e = true := by
    rw [Nat.add_comm, Nat.testBit_two_pow_add_eq, and_two_pow_eq_zero_iff.1 hi']
    rfl
  rw [← hEq, and_two_pow_eq_zero_iff.1 hi] at h1
  exact Bool.false_ne_true h1

/-! ## Ordering at multiples of a stride -/

lemma ordAt_multiple {v : List Nat} {k : Nat} (h : ordAt v k) :
    ∀ (c i : Nat), i + c * k < v.length → v.getD i 0 ≤ v.getD (i + c * k) 0 := by
  intro c
  induction c with
  | zero =>
    intro i hi
    simp
  | succ c ih =>
    intro i hi
    rw [Nat.succ_mul] at hi ⊢
    have h1 : v.getD i 0 ≤ v.getD (i + c * k) 0 := ih i (by omega)
    have h2 : v.getD (i + c * k) 0 ≤ v.getD (i + c * k + k) 0 :=
      h (i + c * k) (by omega)
    have h3 : i + (c * k + k) = i + c * k + k := by omega
    rw [h3]
    omega

/-! ## Lists of pairwise non-interfering comparators act pointwise -/

lemma cmpAt_getD_other {s : List Nat} {c : Nat × Nat} {j : Nat}
    (h1 : j ≠ c.1) (h2 : j ≠ c.2) : (cmpAt s c).getD j 0 = s.getD j 0 := by
  unfold cmpAt
  rw [getD_set_other (Ne.symm h2), getD_set_other (Ne.symm h1)]

lemma cmpList_getD_frame :
    ∀ (l : List (Nat × Nat)) (s : List Nat) (j : Nat),
      (∀ c ∈ l, j ≠ c.1 ∧ j ≠ c.2) → (cmpList l s).getD j 0 = s.getD j 0 := by
  intro l
  induction l with
  | nil => intro s j _; rfl
  | cons c t ih =>
    intro s j h
    obtain ⟨h1, h2⟩ := h c (List.mem_cons_self c t)
    show (cmpList t (cmpAt s c)).getD j 0 = s.getD j 0
    rw [ih _ j (fun d hd => h d (List.mem_cons_of_mem _ hd)),
      cmpAt_getD_other h1 h2]

lemma cmpAt_getD_fst {s : List Nat} {c : Nat × Nat} (hne : c.1 ≠ c.2)
    (h1 : c.1 < s.length) :
    (cmpAt s c).getD c.1 0 = min (s.getD c.1 0) (s.getD c.2 0) := by
  unfold cmpAt
  rw [getD_set_other (Ne.symm hne), getD_set_self_len h1]

lemma cmpAt_getD_snd {s : List Nat} {c : Nat × Nat} (h2 : c.2 < s.length) :
    (cmpAt s c).getD c.2 0 = max (s.getD c.1 0) (s.getD c.2 0) := by
  unfold cmpAt
  have h2' : c.2 < (s.set c.1 (min (s.getD c.1 0) (s.getD c.2 0))).length := by
    simpa using h2
  rw [getD_set_self_len h2']

lemma cmpList_getD_hit :
    ∀ (l : List (Nat × Nat)) (s : List Nat) (c : Nat × Nat),
      c ∈ l → l.Pairwise (fun a b => ¬ Touches a b) → c.1 ≠ c.2 →
      c.1 < s.length → c.2 < s.length →
      (cmpList l s).getD c.1 0 = min (s.getD c.1 0) (s.getD c.2 0) ∧
      (cmpList l s).getD c.2 0 = max (s.getD c.1 0) (s.getD c.2 0) := by
  intro l
  induction l with
  | nil => intro s c hc; simp at hc
  | cons d t ih =>
    intro s c hc hp hne hb1 hb2
    obtain ⟨hd, hp'⟩ := List.pairwise_cons.1 hp
    show (cmpList t (cmpAt s d)).getD c.1 0 = _ ∧
      (cmpList t (cmpAt s d)).getD c.2 0 = _
    rcases List.mem_cons.1 hc with rfl | hct
    · constructor
      · rw [cmpList_getD_frame t (cmpAt s c) c.1 (fun b hb => by
          have := hd b hb
          unfold Touches at this
          push_neg at this
          exact ⟨this.1, this.2.1⟩), cmpAt_getD_fst hne hb1]
      · rw [cmpList_getD_frame t (cmpAt s c) c.2 (fun b hb => by
          have := hd b hb
          unfold Touches at this
          push_neg at this
          exact ⟨this.2.2.1, this.2.2.2⟩), cmpAt_getD_snd hb2]
    · have hT := hd c hct
      unfold Touches at hT
      push_neg at hT
      have e1 : (cmpAt s d).getD c.1 0 = s.getD c.1 0 :=
        cmpAt_getD_other (Ne.symm hT.1) (Ne.symm hT.2.2.1)
      have e2 : (cmpAt s d).getD c.2 0 = s.getD c.2 0 :=
        cmpAt_getD_other (Ne.symm hT.2.1) (Ne.symm hT.2.2.2)
      have := ih (cmpAt s d) c hct hp' hne (by rw [length_cmpAt]; exact hb1)
        (by rw [length_cmpAt]; exact hb2)
      rw [e1, e2] at this
      exact this

/-! ## Pointwise description of one pass -/

lemma pow_as_multiple {e g : Nat} (heg : e < g) :
    ∃ c, 0 < c ∧ 2 ^ g = c * 2 ^ (e + 1) := by
  refine ⟨2 ^ (g - (e + 1)), Nat.pos_pow_of_pos _ (by omega), ?_⟩
  rw [← Nat.pow_add]
  congr 1
  omega

lemma clear_sub_multiple {e c j : Nat} (hbit : j &&& 2 ^ e = 0)
    (hle : c * 2 ^ (e + 1) ≤ j) : (j - c * 2 ^ (e + 1)) &&& 2 ^ e = 0 := by
  have h := and_pow_zero_add_multiple_iff (e := e) (j := j - c * 2 ^ (e + 1)) (c := c)
  rw [show j - c * 2 ^ (e + 1) + c * 2 ^ (e + 1) = j by omega] at h
  exact h.1 hbit

lemma passB_nontouching {n e g : Nat} (heg : e < g) :
    (passB n (2 ^ e) (2 ^ g)).Pairwise (fun a b => ¬ Touches a b) := by
  unfold passB
  rw [List.pairwise_map]
  apply List.Pairwise.imp_of_mem ?_
    (List.Pairwise.sublist (List.filter_sublist _) (List.pairwise_lt_range _))
  intro a b ha hb hab hT
  rw [List.mem_filter] at ha hb
  have ha2 : a &&& 2 ^ e = 0 := beq_iff_eq.1 ha.2
  have hb2 : b &&& 2 ^ e = 0 := beq_iff_eq.1 hb.2
  unfold Touches at hT
  dsimp only at hT
  rcases hT with hT | hT | hT | hT
  · omega
  · exact add_pow_ne_add_pow ha2 hb2 heg hT
  · exact add_pow_ne_add_pow hb2 ha2 heg hT.symm
  · omega

lemma flatMap_if_singleton {α β : Type} (l : List α) (pred : α → Bool)
    (f : α → β) :
    l.flatMap (fun a => if pred a then [f a] else []) = (l.filter pred).map f := by
  induction l with
  | nil => rfl
  | cons a t ih =>
    rw [List.flatMap_cons, List.filter_cons]
    by_cases h : pred a
    · rw [if_pos h, if_pos h, List.map_cons, ih]
      rfl
    · rw [if_neg h, if_neg h, ih]
      rfl

lemma traceA_eq_passA {n p : Nat} : traceA n p = passA n p := by
  unfold traceA passA
  exact flatMap_if_singleton _ _ _

lemma traceA_nontouching {n e : Nat} :
    (traceA n (2 ^ e)).Pairwise (fun a b => ¬ Touches a b) := by
  rw [traceA_eq_passA]
  unfold passA
  rw [List.pairwise_map]
  apply List.Pairwise.imp_of_mem ?_
    (List.Pairwise.sublist (List.filter_sublist _) (List.pairwise_lt_range _))
  intro a b ha hb hab hT
  rw [List.mem_filter] at ha hb
  have ha2 : a &&& 2 ^ e = 0 := beq_iff_eq.1 ha.2
  have hb2 : b &&& 2 ^ e = 0 := beq_iff_eq.1 hb.2
  unfold Touches at hT
  dsimp only at hT
  rcases hT with hT | hT | hT | hT
  · omega
  · exact clear_ne_add_pow ha2 hb2 hT
  · exact clear_ne_add_pow hb2 ha2 hT.symm
  · omega

lemma passB_getD_hit {e g : Nat} (heg : e < g) {s : List Nat} {i : Nat}
    (hbit : i &&& 2 ^ e = 0) (hact : i + 2 ^ g < s.length) :
    (cmpList (passB s.length (2 ^ e) (2 ^ g)) s).getD (i + 2 ^ e) 0 =
      min (s.getD (i + 2 ^ e) 0) (s.getD (i + 2 ^ g) 0) ∧
    (cmpList (passB s.length (2 ^ e) (2 ^ g)) s).getD (i + 2 ^ g) 0 =
      max (s.getD (i + 2 ^ e) 0) (s.getD (i + 2 ^ g) 0) := by
  have hpe : 2 ^ e < 2 ^ g := Nat.pow_lt_pow_right (by omega) heg
  have hmem : ((i + 2 ^ e, i + 2 ^ g) : Nat × Nat) ∈
      passB s.length (2 ^ e) (2 ^ g) := mem_passB.2 ⟨i, hact, hbit, rfl⟩
  exact cmpList_getD_hit _ s _ hmem (passB_nontouching heg)
    (by show i + 2 ^ e ≠ i + 2 ^ g; omega)
    (by show i + 2 ^ e < s.length; omega)
    (by show i + 2 ^ g < s.length; omega)

lemma passB_getD_set_inactive {e g : Nat} (heg : e < g) {s : List Nat} {i : Nat}
    (hbit : i &&& 2 ^ e = 0) (hinact : ¬ i + 2 ^ g < s.length) :
    (cmpList (passB s.length (2 ^ e) (2 ^ g)) s).getD (i + 2 ^ e) 0 =
      s.getD (i + 2 ^ e) 0 := by
  apply cmpList_getD_frame
  intro c hc
  obtain ⟨i', h1, h2, rfl⟩ := mem_passB.1 hc
  dsimp only
  constructor
  · intro hEq
    have hii : i = i' := by omega
    rw [hii] at hinact
    exact hinact h1
  · exact add_pow_ne_add_pow hbit h2 heg

lemma passB_getD_clear_low {e g : Nat} {s : List Nat} {j : Nat}
    (hbit : j &&& 2 ^ e = 0) (hlow : j < 2 ^ g) :
    (cmpList (passB s.length (2 ^ e) (2 ^ g)) s).getD j 0 = s.getD j 0 := by
  apply cmpList_getD_frame
  intro c hc
  obtain ⟨i', h1, h2, rfl⟩ := mem_passB.1 hc
  dsimp only
  refine ⟨clear_ne_add_pow hbit h2, ?_⟩
  intro hEq
  omega

lemma traceA_getD_hit {e : Nat} {s : List Nat} {i : Nat}
    (hbit : i &&& 2 ^ e = 0) (hact : i + 2 ^ e < s.length) :
    (cmpList (traceA s.length (2 ^ e)) s).getD i 0 =
      min (s.getD i 0) (s.getD (i + 2 ^ e) 0) ∧
    (cmpList (traceA s.length (2 ^ e)) s).getD (i + 2 ^ e) 0 =
      max (s.getD i 0) (s.getD (i + 2 ^ e) 0) := by
  have hpe : 0 < 2 ^ e := Nat.pos_pow_of_pos _ (by omega)
  have hmem : ((i, i + 2 ^ e) : Nat × Nat) ∈ traceA s.length (2 ^ e) :=
    mem_traceA.2 ⟨i, hact, hbit, rfl⟩
  exact cmpList_getD_hit _ s _ hmem traceA_nontouching
    (by show i ≠ i + 2 ^ e; omega)
    (by show i < s.length; omega)
    (by show i + 2 ^ e < s.length; omega)

lemma traceA_getD_left_inactive {e : Nat} {s : List Nat} {j : Nat}
    (hbit : j &&& 2 ^ e = 0) (hinact : ¬ j + 2 ^ e < s.length) :
    (cmpList (traceA s.length (2 ^ e)) s).getD j 0 = s.getD j 0 := by
  apply cmpList_getD_frame
  intro c hc
  obtain ⟨i', h1, h2, rfl⟩ := mem_traceA.1 hc
  dsimp only
  constructor
  · intro hEq
    rw [hEq] at hinact
    exact hinact h1
  · exact clear_ne_add_pow hbit h2

/-! ## The merge invariants through one pass -/

lemma clear_add_multiple {e c j : Nat} (h : j &&& 2 ^ e = 0) :
    (j + c * (2 * 2 ^ e)) &&& 2 ^ e = 0 := by
  have h2p : (2 : Nat) ^ (e + 1) = 2 * 2 ^ e := by
    rw [Nat.pow_succ]
    omega
  have := (and_pow_zero_add_multiple_iff (e := e) (j := j) (c := c)).2 h
  rwa [h2p] at this

lemma clear_add_two_pow {e j : Nat} (h : j &&& 2 ^ e = 0) :
    (j + 2 * 2 ^ e) &&& 2 ^ e = 0 := by
  have := clear_add_multiple (c := 1) h
  rwa [Nat.one_mul] at this

lemma bit_set_exists {e j : Nat} (h : ¬ j &&& 2 ^ e = 0) :
    ∃ i, i &&& 2 ^ e = 0 ∧ j = i + 2 ^ e := by
  obtain ⟨h1, h2⟩ := bit_set_decompose h
  exact ⟨j - 2 ^ e, h2, by omega⟩

lemma clear_sub_pow {e g j : Nat} (heg : e < g) (hbit : j &&& 2 ^ e = 0)
    (hle : 2 ^ g ≤ j) : (j - 2 ^ g) &&& 2 ^ e = 0 ∧ j = (j - 2 ^ g) + 2 ^ g := by
  obtain ⟨c, hc0, hcr⟩ := pow_as_multiple heg
  refine ⟨?_, by omega⟩
  have := clear_sub_multiple (c := c) hbit (by omega)
  rwa [← hcr] at this

lemma phaseA_inv {e : Nat} {s : List Nat} (ha : ordAt s (2 * 2 ^ e)) :
    ordAt (cmpList (traceA s.length (2 ^ e)) s) (2 * 2 ^ e) ∧
    condB (cmpList (traceA s.length (2 ^ e)) s) (2 ^ e) := by
  have hppos : 0 < 2 ^ e := Nat.pos_pow_of_pos _ (by omega)
  have hlen : (cmpList (traceA s.length (2 ^ e)) s).length = s.length :=
    length_cmpList _ _
  constructor
  · intro j hj
    rw [hlen] at hj
    by_cases hbit : j &&& 2 ^ e = 0
    · have hact : j + 2 ^ e < s.length := by omega
      have e1 := (traceA_getD_hit hbit hact).1
      have hbit2 : (j + 2 * 2 ^ e) &&& 2 ^ e = 0 := clear_add_two_pow hbit
      by_cases hact2 : j + 2 * 2 ^ e + 2 ^ e < s.length
      · have e2 := (traceA_getD_hit hbit2 hact2).1
        have o1 := ha j hj
        have o2 := ha (j + 2 ^ e) (by omega)
        rw [show j + 2 ^ e + 2 * 2 ^ e = j + 2 * 2 ^ e + 2 ^ e from by omega] at o2
        omega
      · have e2 := traceA_getD_left_inactive hbit2 hact2
        have o1 := ha j hj
        omega
    · obtain ⟨i1, hb1, rfl⟩ := bit_set_exists hbit
      have hb2 : (i1 + 2 * 2 ^ e) &&& 2 ^ e = 0 := clear_add_two_pow hb1
      have hact1 : i1 + 2 ^ e < s.length := by omega
      have hact2 : i1 + 2 * 2 ^ e + 2 ^ e < s.length := by omega
      have e1 := (traceA_getD_hit hb1 hact1).2
      have e2 := (traceA_getD_hit hb2 hact2).2
      rw [show i1 + 2 ^ e + 2 * 2 ^ e = i1 + 2 * 2 ^ e + 2 ^ e from by omega]
      have o1 := ha i1 (by omega)
      have o2 := ha (i1 + 2 ^ e) (by omega)
      rw [show i1 + 2 ^ e + 2 * 2 ^ e = i1 + 2 * 2 ^ e + 2 ^ e from by omega] at o2
      omega
  · intro i hbit hip
    rw [hlen] at hip
    have e1 := (traceA_getD_hit hbit hip).1
    have e2 := (traceA_getD_hit hbit hip).2
    omega

lemma passB_inv {e g : Nat} (heg : e < g) {s : List Nat}
    (hordAt : ordAt s (2 * 2 ^ e)) (hcondB : condB s (2 ^ e))
    (hJ : ∀ i, i &&& 2 ^ e = 0 → i + 2 * 2 ^ g < s.length →
      s.getD (i + 2 ^ e) 0 ≤ s.getD (i + 2 * 2 ^ g) 0) :
    ordAt (cmpList (passB s.length (2 ^ e) (2 ^ g)) s) (2 * 2 ^ e) ∧
    condB (cmpList (passB s.length (2 ^ e) (2 ^ g)) s) (2 ^ e) ∧
    (∀ i, i &&& 2 ^ e = 0 → i + 2 ^ g < s.length →
      (cmpList (passB s.length (2 ^ e) (2 ^ g)) s).getD (i + 2 ^ e) 0 ≤
        (cmpList (passB s.length (2 ^ e) (2 ^ g)) s).getD (i + 2 ^ g) 0) := by
  have hppos : 0 < 2 ^ e := Nat.pos_pow_of_pos _ (by omega)
  have hpe : 2 ^ e < 2 ^ g := Nat.pow_lt_pow_right (by omega) heg
  have h2pg : 2 * 2 ^ e ≤ 2 ^ g := by
    have h1 : 2 ^ (e + 1) ≤ 2 ^ g := Nat.pow_le_pow_right (by omega) (by omega)
    rw [Nat.pow_succ] at h1
    omega
  obtain ⟨c, hc0, hcr⟩ := pow_as_multiple heg
  have hcr2 : 2 ^ g = c * (2 * 2 ^ e) := by
    rw [hcr, Nat.pow_succ]
    ring
  have hlen : (cmpList (passB s.length (2 ^ e) (2 ^ g)) s).length = s.length :=
    length_cmpList _ _
  have hmul : ∀ x, x + 2 ^ g < s.length → s.getD x 0 ≤ s.getD (x + 2 ^ g) 0 := by
    intro x hx
    have h := ordAt_multiple hordAt c x (by rw [← hcr2]; exact hx)
    rwa [← hcr2] at h
  refine ⟨?_, ?_, ?_⟩
  · intro j hj
    rw [hlen] at hj
    by_cases hbit : j &&& 2 ^ e = 0
    · have hbit2 : (j + 2 * 2 ^ e) &&& 2 ^ e = 0 := clear_add_two_pow hbit
      by_cases hjr : j < 2 ^ g
      · have e1 := passB_getD_clear_low (s := s) hbit hjr
        by_cases hjr2 : j + 2 * 2 ^ e < 2 ^ g
        · have e2 := passB_getD_clear_low (s := s) hbit2 hjr2
          have o1 := hordAt j hj
          omega
        · have hd := clear_sub_pow heg hbit2 (by omega)
          set i1 := j + 2 * 2 ^ e - 2 ^ g with hi1def
          have hEq : j + 2 * 2 ^ e = i1 + 2 ^ g := hd.2
          have e2 := (passB_getD_hit (s := s) heg hd.1 (by omega)).2
          rw [hEq]
          have o1 := hordAt j hj
          rw [hEq] at o1
          omega
      · have hd := clear_sub_pow heg hbit (by omega)
        set i1 := j - 2 ^ g with hi1def
        have hEq : j = i1 + 2 ^ g := hd.2
        have e1 := (passB_getD_hit (s := s) heg hd.1 (by omega)).2
        have hb2 : (i1 + 2 * 2 ^ e) &&& 2 ^ e = 0 := clear_add_two_pow hd.1
        have e2 := (passB_getD_hit (s := s) heg hb2 (by omega)).2
        rw [hEq, show i1 + 2 ^ g + 2 * 2 ^ e = i1 + 2 * 2 ^ e + 2 ^ g from by omega]
        have o1 := hordAt (i1 + 2 ^ e) (by omega)
        rw [show i1 + 2 ^ e + 2 * 2 ^ e = i1 + 2 * 2 ^ e + 2 ^ e from by omega] at o1
        have o2 := hordAt (i1 + 2 ^ g) (by omega)
        rw [show i1 + 2 ^ g + 2 * 2 ^ e = i1 + 2 * 2 ^ e + 2 ^ g from by omega] at o2
        omega
    · obtain ⟨i1, hb1, rfl⟩ := bit_set_exists hbit
      have hb2 : (i1 + 2 * 2 ^ e) &&& 2 ^ e = 0 := clear_add_two_pow hb1
      rw [show i1 + 2 ^ e + 2 * 2 ^ e = i1 + 2 * 2 ^ e + 2 ^ e from by omega]
      have o1 := hordAt (i1 + 2 ^ e) (by omega)
      rw [show i1 + 2 ^ e + 2 * 2 ^ e = i1 + 2 * 2 ^ e + 2 ^ e from by omega] at o1
      by_cases hact2 : i1 + 2 * 2 ^ e + 2 ^ g < s.length
      · have hact1 : i1 + 2 ^ g < s.length := by omega
        have e1 := (passB_getD_hit (s := s) heg hb1 hact1).1
        have e2 := (passB_getD_hit (s := s) heg hb2 hact2).1
        have o2 := hordAt (i1 + 2 ^ g) (by omega)
        rw [show i1 + 2 ^ g + 2 * 2 ^ e = i1 + 2 * 2 ^ e + 2 ^ g from by omega] at o2
        omega
      · have e2 := passB_getD_set_inactive (s := s) heg hb2 hact2
        by_cases hact1 : i1 + 2 ^ g < s.length
        · have e1 := (passB_getD_hit (s := s) heg hb1 hact1).1
          omega
        · have e1 := passB_getD_set_inactive (s := s) heg hb1 hact1
          omega
  · intro i hbit hip
    rw [hlen] at hip
    by_cases hir : i < 2 ^ g
    · have e1 := passB_getD_clear_low (s := s) hbit hir
      by_cases hact : i + 2 ^ g < s.length
      · have e2 := (passB_getD_hit (s := s) heg hbit hact).1
        have b1 := hcondB i hbit hip
        have m1 := hmul i hact
        omega
      · have e2 := passB_getD_set_inactive (s := s) heg hbit hact
        have b1 := hcondB i hbit hip
        omega
    · have hd := clear_sub_pow heg hbit (by omega)
      set i0 := i - 2 ^ g with hi0def
      have hEq : i = i0 + 2 ^ g := hd.2
      have e1 := (passB_getD_hit (s := s) heg hd.1 (by omega)).2
      rw [hEq]
      have hb' : (i0 + 2 ^ g) &&& 2 ^ e = 0 := by
        rw [← hEq]
        exact hbit
      by_cases hact : i0 + 2 ^ g + 2 ^ g < s.length
      · have e2 := (passB_getD_hit (s := s) heg hb' hact).1
        have b1 := hcondB (i0 + 2 ^ g) hb' (by omega)
        have m1 := hmul (i0 + 2 ^ e) (by omega)
        rw [show i0 + 2 ^ e + 2 ^ g = i0 + 2 ^ g + 2 ^ e from by omega] at m1
        have m2 := hmul (i0 + 2 ^ g) (by omega)
        have j1 := hJ i0 hd.1 (by omega)
        rw [show i0 + 2 * 2 ^ g = i0 + 2 ^ g + 2 ^ g from by omega] at j1
        omega
      · have e2 := passB_getD_set_inactive (s := s) heg hb' hact
        have b1 := hcondB (i0 + 2 ^ g) hb' (by omega)
        have m1 := hmul (i0 + 2 ^ e) (by omega)
        rw [show i0 + 2 ^ e + 2 ^ g = i0 + 2 ^ g + 2 ^ e from by omega] at m1
        omega
  · intro i hbit hact
    have e1 := (passB_getD_hit (s := s) heg hbit hact).1
    have e2 := (passB_getD_hit (s := s) heg hbit hact).2
    omega

/-! ## Chaining the passes -/

lemma passesB_chain {e : Nat} :
    ∀ f (s : List Nat), e ≤ f →
      ordAt s (2 * 2 ^ e) → condB s (2 ^ e) →
      (∀ i, i &&& 2 ^ e = 0 → i + 2 * 2 ^ f < s.length →
        s.getD (i + 2 ^ e) 0 ≤ s.getD (i + 2 * 2 ^ f) 0) →
      ordAt (cmpList (passesB s.length (2 ^ e) (2 ^ f)) s) (2 * 2 ^ e) ∧
      condB (cmpList (passesB s.length (2 ^ e) (2 ^ f)) s) (2 ^ e) ∧
      (∀ i, i &&& 2 ^ e = 0 → i + 2 * 2 ^ e < s.length →
        (cmpList (passesB s.length (2 ^ e) (2 ^ f)) s).getD (i + 2 ^ e) 0 ≤
          (cmpList (passesB s.length (2 ^ e) (2 ^ f)) s).getD (i + 2 * 2 ^ e) 0) := by
  intro f
  induction f using Nat.strong_induction_on with
  | _ f ih =>
    intro s hef hordAt hcondB hJ
    by_cases heg : e < f
    · have hpq : 2 ^ e < 2 ^ f := Nat.pow_lt_pow_right (by omega) heg
      have h2f : 2 ^ f = 2 * 2 ^ (f - 1) := by
        conv_lhs => rw [show f = (f - 1) + 1 from by omega]
        rw [Nat.pow_succ]
        omega
      have hsh : (2 ^ f) >>> 1 = 2 ^ (f - 1) := by
        rw [Nat.shiftRight_one, h2f, Nat.mul_div_cancel_left _ (by omega : 0 < 2)]
      have hstep := passB_inv (g := f) heg hordAt hcondB hJ
      set s1 := cmpList (passB s.length (2 ^ e) (2 ^ f)) s with hs1
      have hlen1 : s1.length = s.length := length_cmpList _ _
      have hun : passesB s.length (2 ^ e) (2 ^ f) =
          passB s.length (2 ^ e) (2 ^ f) ++
            passesB s.length (2 ^ e) (2 ^ (f - 1)) := by
        rw [passesB, if_pos hpq, hsh]
      rw [hun, cmpList_append, ← hs1, ← hlen1]
      have hJ1 : ∀ i, i &&& 2 ^ e = 0 → i + 2 * 2 ^ (f - 1) < s1.length →
          s1.getD (i + 2 ^ e) 0 ≤ s1.getD (i + 2 * 2 ^ (f - 1)) 0 := by
        intro i hb hlt
        rw [← h2f]
        apply hstep.2.2 i hb
        rw [hlen1, ← h2f] at hlt
        exact hlt
      exact ih (f - 1) (by omega) s1 (by omega) hstep.1 hstep.2.1 hJ1
    · have hfe : f = e := by omega
      subst hfe
      rw [passesB, if_neg (by omega : ¬ 2 ^ f < 2 ^ f)]
      exact ⟨hordAt, hcondB, hJ⟩

lemma ordAt_one_sorted {v : List Nat} (h : ordAt v 1) :
    List.Sorted (· ≤ ·) v := by
  apply List.pairwise_iff_get.2
  intro i j hij
  have hm := ordAt_multiple h (j.1 - i.1) i.1
    (by rw [Nat.mul_one]; omega)
  rw [Nat.mul_one, show i.1 + (j.1 - i.1) = j.1 from by omega] at hm
  have g1 : v.getD i.1 0 = v.get i := by
    simp [List.getD_eq_getElem?_getD, List.getElem?_eq_getElem i.2]
  have g2 : v.getD j.1 0 = v.get j := by
    simp [List.getD_eq_getElem?_getD, List.getElem?_eq_getElem j.2]
  rw [g1, g2] at hm
  exact hm

lemma traceP_chain {k : Nat} :
    ∀ e (s : List Nat), e ≤ k → s.length ≤ 2 * 2 ^ k →
      ordAt s (2 * 2 ^ e) →
      List.Sorted (· ≤ ·) (cmpList (traceP s.length (2 ^ k) (2 ^ e)) s) := by
  intro e
  induction e using Nat.strong_induction_on with
  | _ e ih =>
    intro s hek hn hord
    have hppos : 0 < 2 ^ e := Nat.pos_pow_of_pos _ (by omega)
    have hun : traceP s.length (2 ^ k) (2 ^ e) =
        traceA s.length (2 ^ e) ++ traceQ s.length (2 ^ e) (2 ^ k) 0 ++
          traceP s.length (2 ^ k) ((2 ^ e) >>> 1) := by
      rw [traceP, if_pos hppos]
    rw [hun, cmpList_append, cmpList_append]
    set s1 := cmpList (traceA s.length (2 ^ e)) s with hs1
    have hlen1 : s1.length = s.length := length_cmpList _ _
    have hA := phaseA_inv (e := e) hord
    rw [cmpList_traceQ_eq_passesB hn s1, ← hlen1]
    have hJk : ∀ i, i &&& 2 ^ e = 0 → i + 2 * 2 ^ k < s1.length →
        s1.getD (i + 2 ^ e) 0 ≤ s1.getD (i + 2 * 2 ^ k) 0 := by
      intro i hb hlt
      rw [hlen1] at hlt
      omega
    have hchain := passesB_chain (e := e) k s1 hek hA.1 hA.2 hJk
    set s2 := cmpList (passesB s1.length (2 ^ e) (2 ^ k)) s1 with hs2
    have hlen2 : s2.length = s1.length := length_cmpList _ _
    obtain ⟨hord2, hcondB2, hJ2⟩ := hchain
    have hordp : ordAt s2 (2 ^ e) := by
      intro j hj
      by_cases hbit : j &&& 2 ^ e = 0
      · exact hcondB2 j hbit hj
      · obtain ⟨i1, hb1, rfl⟩ := bit_set_exists hbit
        have hx := hJ2 i1 hb1 (by omega)
        rw [show i1 + 2 * 2 ^ e = i1 + 2 ^ e + 2 ^ e from by omega] at hx
        exact hx
    by_cases he0 : 0 < e
    · have h2e : 2 ^ e = 2 * 2 ^ (e - 1) := by
        conv_lhs => rw [show e = (e - 1) + 1 from by omega]
        rw [Nat.pow_succ]
        omega
      have hsh : (2 ^ e) >>> 1 = 2 ^ (e - 1) := by
        rw [Nat.shiftRight_one, h2e, Nat.mul_div_cancel_left _ (by omega : 0 < 2)]
      rw [hsh, ← hlen2]
      apply ih (e - 1) (by omega) s2 (by omega) (by rw [hlen2, hlen1]; exact hn)
      rw [← h2e]
      exact hordp
    · have he : e = 0 := by omega
      subst he
      have hsh : (2 ^ 0) >>> 1 = 0 := by decide
      rw [hsh]
      have hnil : traceP s1.length (2 ^ k) 0 = [] := by
        rw [traceP, if_neg (by omega)]
      rw [hnil]
      show List.Sorted (· ≤ ·) s2
      apply ordAt_one_sorted
      intro j hj
      have := hordp j (by simpa using hj)
      simpa using this

lemma length_le_one_sorted {s : List Nat} (h : s.length ≤ 1) :
    List.Sorted (· ≤ ·) s := by
  cases s with
  | nil => exact List.sorted_nil
  | cons a t =>
    cases t with
    | nil => exact List.sorted_singleton a
    | cons b u => simp at h

lemma netTrace_sorted (s : List Nat) :
    List.Sorted (· ≤ ·) (cmpList (netTrace s.length) s) := by
  unfold netTrace
  by_cases h : 1 < s.length
  · rw [if_pos h]
    obtain ⟨k, hk1, hk2, hk3⟩ := topPow_zero_spec h
    rw [hk1]
    have h2k : (2 : Nat) ^ (k + 1) = 2 * 2 ^ k := by
      rw [Nat.pow_succ]
      omega
    apply traceP_chain k s (Nat.le_refl k) (by omega)
    intro j hj
    omega
  · rw [if_neg h]
    exact length_le_one_sorted (s := s) (by omega)

/-! ## Main correctness of the sort -/

lemma ctSort_sorted_perm {w : Nat} {s : List Nat} (hw : 1 ≤ w)
    (hb : ∀ x ∈ s, x < 2 ^ w) :
    (ctSort w s).Perm s ∧ List.Sorted (· ≤ ·) (ctSort w s) := by
  rw [ctSort_runTrace, runTrace_eq_cmpList hw _ _ hb]
  refine ⟨?_, netTrace_sorted s⟩
  apply cmpList_perm
  intro c hc
  exact netTrace_bounds c hc

lemma mem_supportedWidths_pos {w : Nat} (hw : w ∈ supportedWidths) : 1 ≤ w := by
  have hcases : w = 8 ∨ w = 16 ∨ w = 32 ∨ w = 64 := by
    simpa [supportedWidths] using hw
  omega

/-- C1: for every finite sequence of W-bit unsigned integers, W a supported
width, `ct_sort` turns it into a permutation of the original that is sorted
in non-decreasing order. -/
theorem c1_ctSort_sorts (w : Nat) (s : List Nat) (hw : w ∈ supportedWidths)
    (hb : ∀ x ∈ s, x < 2 ^ w) :
    (ctSort w s).Perm s ∧ List.Sorted (· ≤ ·) (ctSort w s) :=
  ctSort_sorted_perm (mem_supportedWidths_pos hw) hb

theorem c1_ctSort_sorts_witness :
    (8 ∈ supportedWidths ∧ ∀ x ∈ [5, 3, 8, 1], x < 2 ^ 8) ∧
    ((ctSort 8 [5, 3, 8, 1]).Perm [5, 3, 8, 1] ∧
      List.Sorted (· ≤ ·) (ctSort 8 [5, 3, 8, 1])) :=
  ⟨⟨by decide, by decide⟩,
    c1_ctSort_sorts 8 [5, 3, 8, 1] (by decide) (by decide)⟩

lemma bounded_perm {w : Nat} {s t : List Nat} (hperm : t.Perm s)
    (hb : ∀ x ∈ s, x < 2 ^ w) : ∀ x ∈ t, x < 2 ^ w := by
  intro x hx
  exact hb x (hperm.mem_iff.1 hx)

/-- C6: `ct_sort` leaves an already-sorted sequence exactly unchanged, and
applying it twice yields the same result as applying it once. -/
theorem c6_ctSort_idempotent (w : Nat) (s : List Nat) (hw : 1 ≤ w)
    (hb : ∀ x ∈ s, x < 2 ^ w) :
    (List.Sorted (· ≤ ·) s → ctSort w s = s) ∧
    ctSort w (ctSort w s) = ctSort w s := by
  have hfix : ∀ t : List Nat, (∀ x ∈ t, x < 2 ^ w) → List.Sorted (· ≤ ·) t →
      ctSort w t = t := by
    intro t hbt hst
    rw [ctSort_runTrace, runTrace_eq_cmpList hw _ _ hbt]
    exact cmpList_sorted_noop _ _ hst (fun c hc => netTrace_bounds c hc)
  refine ⟨hfix s hb, ?_⟩
  obtain ⟨hperm, hsorted⟩ := ctSort_sorted_perm hw hb
  exact hfix _ (bounded_perm hperm hb) hsorted

theorem c6_ctSort_idempotent_witness :
    (1 ≤ 8 ∧ ∀ x ∈ [1, 2, 2, 9], x < 2 ^ 8) ∧
    ((List.Sorted (· ≤ ·) [1, 2, 2, 9] → ctSort 8 [1, 2, 2, 9] = [1, 2, 2, 9]) ∧
      ctSort 8 (ctSort 8 [1, 2, 2, 9]) = ctSort 8 [1, 2, 2, 9]) :=
  ⟨⟨by decide, by decide⟩,
    c6_ctSort_idempotent 8 [1, 2, 2, 9] (by decide) (by decide)⟩

/-- C9 (counterexample): width 128 is not among the widths the source
instantiates the sort for. -/
theorem c9_no_u128 : ¬ (128 ∈ supportedWidths) := by decide

/-- C9 (amended): the constant-time sort is provided exactly for the widths
8, 16, 32 and 64 — for each of them it sorts every sequence of W-bit values —
and width 128 is not provided. -/
theorem c9_supported_widths :
    supportedWidths = [8, 16, 32, 64] ∧ 128 ∉ supportedWidths ∧
    ∀ w ∈ supportedWidths, ∀ s : List Nat, (∀ x ∈ s, x < 2 ^ w) →
      (ctSort w s).Perm s ∧ List.Sorted (· ≤ ·) (ctSort w s) := by
  refine ⟨rfl, by decide, ?_⟩
  intro w hw s hb
  exact ctSort_sorted_perm (mem_supportedWidths_pos hw) hb

theorem c9_supported_widths_witness :
    (16 ∈ supportedWidths ∧ ∀ x ∈ [300, 7], x < 2 ^ 16) ∧
    ((ctSort 16 [300, 7]).Perm [300, 7] ∧
      List.Sorted (· ≤ ·) (ctSort 16 [300, 7])) :=
  ⟨⟨by decide, by decide⟩,
    c9_supported_widths.2.2 16 (by decide) [300, 7] (by decide)⟩

end DjbSort
